import Mathlib

/-!
# Verification of the NetworKit Euclidean quadtree (`QuadNodeCartesianEuclid`)

Shallow embedding of the dynamic 2-D region quadtree from
`networkit/cpp/community/NodeStructuralRandMeasure.h` (class
`QuadNodeCartesianEuclid`), together with proofs about its operations.

Modelling conventions:
* `double` coordinates are modelled as `ℚ` (every finite IEEE double is a
  rational number, and all coordinate arithmetic in the source is exact
  comparison, addition, subtraction and halving).  Distances and
  probabilities, which the source computes with `sqrt`/`log`, are modelled
  exactly over `ℝ`.
* `assert(...)` statements are release-mode no-ops and are kept as comments;
  the documented *precondition* of insertion (`assert(this->responsible(pos))`
  for the root call) is modelled as a failing (`none`) build step in `build`.
* The C++ recursion of `addContent` can fail to terminate (e.g. repeated
  splits of coincident points), so the model takes a fuel parameter; `none`
  means the C++ program would have aborted or not terminated.
* Element identifiers (the template parameter `T`, instantiated with an index
  type by the callers) are `ℕ`.
-/

namespace QuadTree

/-- 2-D point, mirroring `Point2D<double>` (`viz/Point.h`): rational
coordinates with `getX`/`getY` accessors. -/
structure Point2D where
  x : ℚ
  y : ℚ
deriving DecidableEq, Repr

def Point2D.getX (p : Point2D) : ℚ := p.x

def Point2D.getY (p : Point2D) : ℚ := p.y

/-- `Point::squaredDistance` from `viz/Point.h`: sum of squared coordinate
differences (exact in `ℚ`). -/
def Point2D.squaredDistance (p q : Point2D) : ℚ :=
  (p.x - q.x) * (p.x - q.x) + (p.y - q.y) * (p.y - q.y)

/-- `Point::distance` from `viz/Point.h`: `sqrt(squaredDistance(p))`,
modelled exactly over `ℝ`. -/
noncomputable def Point2D.distance (p q : Point2D) : ℝ :=
  Real.sqrt ((p.squaredDistance q : ℚ) : ℝ)

/-- The scalar fields of `QuadNodeCartesianEuclid` (the never-read
`lowerBoundR` field is omitted).  Children are split off into the tree type
`QuadNode` so that the type can be recursive. -/
structure NodeData where
  minX : ℚ
  minY : ℚ
  maxX : ℚ
  maxY : ℚ
  capacity : ℕ
  subTreeSize : ℕ
  content : List ℕ
  positions : List Point2D
  isLeaf : Bool
  splitTheoretical : Bool
  ID : ℕ
deriving DecidableEq, Repr

/-- A quadtree node: scalar data plus the `children` vector. -/
inductive QuadNode : Type where
  | mk (data : NodeData) (children : List QuadNode)

namespace QuadNode

def data : QuadNode → NodeData
  | .mk d _ => d

def children : QuadNode → List QuadNode
  | .mk _ c => c

@[simp] theorem data_mk (d : NodeData) (c : List QuadNode) : (QuadNode.mk d c).data = d := rfl

@[simp] theorem children_mk (d : NodeData) (c : List QuadNode) :
    (QuadNode.mk d c).children = c := rfl

abbrev minX (t : QuadNode) : ℚ := t.data.minX
abbrev minY (t : QuadNode) : ℚ := t.data.minY
abbrev maxX (t : QuadNode) : ℚ := t.data.maxX
abbrev maxY (t : QuadNode) : ℚ := t.data.maxY
abbrev capacity (t : QuadNode) : ℕ := t.data.capacity
abbrev subTreeSize (t : QuadNode) : ℕ := t.data.subTreeSize
abbrev content (t : QuadNode) : List ℕ := t.data.content
abbrev positions (t : QuadNode) : List Point2D := t.data.positions
abbrev isLeaf (t : QuadNode) : Bool := t.data.isLeaf
abbrev splitTheoretical (t : QuadNode) : Bool := t.data.splitTheoretical
abbrev ID (t : QuadNode) : ℕ := t.data.ID

/-- `static const unsigned coarsenLimit = 4`. -/
def coarsenLimit : ℕ := 4

/-- `responsible(pos)`: does `pos` fall inside the (half-open) region managed
by this node?  Source: `pos.getX() >= minX && pos.getY() >= minY &&
pos.getX() < maxX && pos.getY() < maxY`. -/
def responsible (t : QuadNode) (pos : Point2D) : Prop :=
  pos.getX ≥ t.minX ∧ pos.getY ≥ t.minY ∧ pos.getX < t.maxX ∧ pos.getY < t.maxY

instance (t : QuadNode) (pos : Point2D) : Decidable (t.responsible pos) := by
  unfold responsible; infer_instance

/-- `size()`: number of points lying in the region managed by this node,
`isLeaf ? content.size() : subTreeSize`. -/
def size (t : QuadNode) : ℕ :=
  if t.isLeaf then t.content.length else t.subTreeSize

end QuadNode

/-- The constructor `QuadNodeCartesianEuclid(lower, upper, capacity,
splitTheoretical)`: a fresh leaf for the given region. -/
def mkQuadNode (lower upper : Point2D) (capacity : ℕ) (splitTheoretical : Bool) : QuadNode :=
  .mk { minX := lower.getX, minY := lower.getY, maxX := upper.getX, maxY := upper.getY,
        capacity := capacity, splitTheoretical := splitTheoretical, ID := 0,
        isLeaf := true, subTreeSize := 0, content := [], positions := [] } []

namespace QuadNode

/-- `split()`: compute the split point (midpoint or coordinate-wise median by
policy) and create the four quadrant children.  The source `assert`s that the
split point is strictly interior; that assertion is a debug-mode check only
and is not modelled (with a degenerate split point the four half-open
quadrants still partition the region).  Reading the median of an empty buffer
is undefined behaviour in the source (`sortedX[numPoints/2]` on an empty
vector), here it yields the `getD` default.  `std::sort` on a vector of
coordinates is modelled by `mergeSort`: for duplicate-free or duplicated
rational values alike, both produce the unique ascending reordering. -/
def split (t : QuadNode) : QuadNode :=
  let middleX : ℚ :=
    if t.splitTheoretical then (t.minX + t.maxX) / 2
    else ((t.positions.map Point2D.getX).mergeSort (fun a b => decide (a ≤ b))).getD
        (t.positions.length / 2) 0
  let middleY : ℚ :=
    if t.splitTheoretical then (t.minY + t.maxY) / 2
    else ((t.positions.map Point2D.getY).mergeSort (fun a b => decide (a ≤ b))).getD
        (t.positions.length / 2) 0
  let middle : Point2D := ⟨middleX, middleY⟩
  let southwest := mkQuadNode ⟨t.minX, t.minY⟩ middle t.capacity t.splitTheoretical
  let southeast := mkQuadNode ⟨middleX, t.minY⟩ ⟨t.maxX, middleY⟩ t.capacity t.splitTheoretical
  let northwest := mkQuadNode ⟨t.minX, middleY⟩ ⟨middleX, t.maxY⟩ t.capacity t.splitTheoretical
  let northeast := mkQuadNode middle ⟨t.maxX, t.maxY⟩ t.capacity t.splitTheoretical
  .mk { t.data with isLeaf := false } [southwest, southeast, northwest, northeast]

mutual

/-- `addContent(input, pos)`: insert an element, splitting the node when the
leaf buffer is full.  `fuel` bounds the recursion depth, which the C++ source
does not bound (it can recurse forever on coincident points); every recursive
call consumes one unit, and `none` means fuel ran out.  Debug assertions
(`input < sanityNodeLimit`, `content.size() == positions.size()`,
`this->responsible(pos)`, `subTreeSize == content.size()` after reinsertion,
`foundResponsibleChild`) are release-mode no-ops; in particular, when no
child is responsible the element is silently dropped while `subTreeSize` is
still incremented, exactly as in release mode. -/
def addContent : ℕ → QuadNode → ℕ → Point2D → Option QuadNode
  | 0, _, _, _ => none
  | fuel + 1, t, input, pos =>
    if t.isLeaf then
      if t.content.length + 1 < t.capacity then
        some (.mk { t.data with content := t.data.content ++ [input],
                                positions := t.data.positions ++ [pos] } t.children)
      else
        -- split, then re-insert every previously buffered element
        match reinsertAll fuel t.split (t.content.zip t.positions) with
        | none => none
        | some tr =>
          -- subTreeSize = content.size(); content.clear(); positions.clear();
          let tr2 : QuadNode := .mk { tr.data with subTreeSize := t.content.length,
                                                   content := [], positions := [] } tr.children
          addContent fuel tr2 input pos
    else
      match addToFirstResponsibleChild fuel t.children input pos with
      | none => none
      | some ch' =>
          some (.mk { t.data with subTreeSize := t.data.subTreeSize + 1 } ch')

/-- The re-insertion loop of `addContent` after a split:
`for (i < content.size()) this->addContent(content[i], positions[i])`. -/
def reinsertAll : ℕ → QuadNode → List (ℕ × Point2D) → Option QuadNode
  | 0, _, _ => none
  | _ + 1, t, [] => some t
  | fuel + 1, t, cp :: rest =>
    match addContent fuel t cp.1 cp.2 with
    | none => none
    | some t' => reinsertAll fuel t' rest

/-- The child loop of `addContent` on an internal node: insert into the
first responsible child (the source `break`s after it). -/
def addToFirstResponsibleChild : ℕ → List QuadNode → ℕ → Point2D → Option (List QuadNode)
  | 0, _, _, _ => none
  | _ + 1, [], _, _ => some []
  | fuel + 1, c :: cs, input, pos =>
    if c.responsible pos then
      (addContent fuel c input pos).map (· :: cs)
    else
      (addToFirstResponsibleChild fuel cs input pos).map (c :: ·)

end

mutual

/-- `removeContent(input, pos)`: remove an element, possibly coarsening the
node.  Returns `(found, updated node)`.  The debug assertions
(`positions[i].distance(pos) == 0`, `!removed`, `children.size() > 0`,
`allContent.size() == allPositions.size()`) are release-mode no-ops and not
modelled.  `allLeaves` is recorded from each child *before* its own
`removeContent` call, exactly as in the source loop. -/
def removeContent : QuadNode → ℕ → Point2D → Bool × QuadNode
  | t@(.mk d ch), input, pos =>
    if ¬ t.responsible pos then (false, t)
    else if d.isLeaf then
      match d.content.findIdx? (· == input) with
      | some i =>
          (true, .mk { d with content := d.content.eraseIdx i,
                              positions := d.positions.eraseIdx i } ch)
      | none => (false, t)
    else
      let allLeaves := ch.all (fun c => c.isLeaf)
      let results := removeContentList ch input pos
      let removed := results.any (fun r => r.1)
      let newChildren := results.map (fun r => r.2)
      let newSize := if removed then d.subTreeSize - 1 else d.subTreeSize
      if removed ∧ allLeaves ∧ newSize < coarsenLimit then
        -- coarsen: concatenate all children's buffers, discard the children
        (removed, .mk { d with subTreeSize := newSize,
                               content := (newChildren.map (fun c => c.content)).flatten,
                               positions := (newChildren.map (fun c => c.positions)).flatten,
                               isLeaf := true } [])
      else
        (removed, .mk { d with subTreeSize := newSize } newChildren)

/-- The child loop of `removeContent`: the source attempts removal in every
child (defensively, not stopping at the first success). -/
def removeContentList : List QuadNode → ℕ → Point2D → List (Bool × QuadNode)
  | [], _, _ => []
  | c :: cs, input, pos => removeContent c input pos :: removeContentList cs input pos

end

mutual

/-- `getElements()`: all element identifiers stored in this subtree, in
traversal order. -/
def getElements : QuadNode → List ℕ
  | .mk d ch => if d.isLeaf then d.content else getElementsList ch

def getElementsList : List QuadNode → List ℕ
  | [] => []
  | c :: cs => getElements c ++ getElementsList cs

end

mutual

/-- `getCoordinates(pointContainer)`: all stored positions of the subtree
(the source appends them to a caller-supplied container). -/
def getCoordinates : QuadNode → List Point2D
  | .mk d ch => if d.isLeaf then d.positions else getCoordinatesList ch

def getCoordinatesList : List QuadNode → List Point2D
  | [] => []
  | c :: cs => getCoordinates c ++ getCoordinatesList cs

end

mutual

/-- All stored `(identifier, position)` pairs of the subtree, in the same
traversal order as `getElements`/`getCoordinates`. -/
def storedPairs : QuadNode → List (ℕ × Point2D)
  | .mk d ch => if d.isLeaf then d.content.zip d.positions else storedPairsList ch

def storedPairsList : List QuadNode → List (ℕ × Point2D)
  | [] => []
  | c :: cs => storedPairs c ++ storedPairsList cs

end

mutual

/-- The true number of elements stored in the subtree (independent of the
`subTreeSize` cache). -/
def realCount : QuadNode → ℕ
  | .mk d ch => if d.isLeaf then d.content.length else realCountList ch

def realCountList : List QuadNode → ℕ
  | [] => 0
  | c :: cs => realCount c + realCountList cs

end

mutual

/-- `indexSubtree(nextID)`: the source walks the children first, then
executes `this->ID = result; return result + 1;` on *every* node (the
`assert(children.size() == 4 || children.size() == 0)` is a debug no-op).
Returns the updated tree and the returned next index. -/
def indexSubtree : QuadNode → ℕ → QuadNode × ℕ
  | .mk d ch, nextID =>
    let (ch', result) := indexSubtreeList ch nextID
    (.mk { d with ID := result } ch', result + 1)

def indexSubtreeList : List QuadNode → ℕ → List QuadNode × ℕ
  | [], nextID => ([], nextID)
  | c :: cs, nextID =>
    let (c', n') := indexSubtree c nextID
    let (cs', n'') := indexSubtreeList cs n'
    (c' :: cs', n'')

end

mutual

/-- The number of nodes (leaves and internal nodes alike) of a subtree;
`indexSubtree` advances its counter by exactly this amount. -/
def nodeCount : QuadNode → ℕ
  | .mk _ ch => nodeCountList ch + 1

def nodeCountList : List QuadNode → ℕ
  | [] => 0
  | c :: cs => nodeCount c + nodeCountList cs

end

mutual

/-- `reindex(offset)`: reassign the stored identifiers of every leaf to a
contiguous range (`std::generate` with `p++` starting at `offset`), walking
children in order.  The `#pragma omp task` bodies only touch the leaf's own
buffer; the model executes them in traversal order. -/
def reindex : QuadNode → ℕ → QuadNode × ℕ
  | .mk d ch, offset =>
    if d.isLeaf then
      (.mk { d with content := List.range' offset d.content.length } ch,
       offset + d.content.length)
    else
      let (ch', offset') := reindexList ch offset
      (.mk d ch', offset')

def reindexList : List QuadNode → ℕ → List QuadNode × ℕ
  | [], offset => ([], offset)
  | c :: cs, offset =>
    let (c', o') := reindex c offset
    let (cs', o'') := reindexList cs o'
    (c' :: cs', o'')

end

/-- The `#pragma omp task` body of `sortPointsInLeaves` on one leaf buffer:
build the permutation of indices sorted by the x-coordinate of the
corresponding position, then apply it to both buffers.  `std::sort` with the
strict comparator `positions[i].getX() < positions[j].getX()` is modelled by
`mergeSort` with the corresponding non-strict total comparator (the results
agree up to the unspecified order of ties). -/
def sortLeafBuffers (content : List ℕ) (positions : List Point2D) :
    List ℕ × List Point2D :=
  let cs := content.length
  let permutation := (List.range cs).mergeSort
    (fun i j => decide ((positions.getD i ⟨0, 0⟩).getX ≤ (positions.getD j ⟨0, 0⟩).getX))
  (permutation.map (fun i => content.getD i 0),
   permutation.map (fun i => positions.getD i ⟨0, 0⟩))

mutual

/-- `sortPointsInLeaves()`: reorder each leaf's buffers by the x-coordinate. -/
def sortPointsInLeaves : QuadNode → QuadNode
  | .mk d ch =>
    if d.isLeaf then
      let sorted := sortLeafBuffers d.content d.positions
      .mk { d with content := sorted.1, positions := sorted.2 } ch
    else
      .mk d (sortPointsInLeavesList ch)

def sortPointsInLeavesList : List QuadNode → List QuadNode
  | [] => []
  | c :: cs => sortPointsInLeaves c :: sortPointsInLeavesList cs

end

/-- `EuclideanDistances(query)`: minimum and maximum Euclidean distance from
the query point to the node's rectangle, computed from the candidate
boundary points exactly as in the source: the two points directly
above/below the query when its x-coordinate is strictly inside the
x-extent, symmetrically for the y-extent, and the four corners.
`minDistance` starts at `numeric_limits<double>::max()` (an upper bound for
every candidate distance) — equivalently, the fold below seeds with the
first candidate distance; the candidate list is never empty since it always
contains the corners.  When the node is `responsible` for the query the
minimum starts at `0` instead.  The assertions at the end are debug no-ops. -/
noncomputable def EuclideanDistances (t : QuadNode) (query : Point2D) : ℝ × ℝ :=
  let cands : List Point2D :=
    (if query.getX > t.minX ∧ query.getX < t.maxX then
       [⟨query.getX, t.maxY⟩, ⟨query.getX, t.minY⟩] else []) ++
    (if query.getY > t.minY ∧ query.getY < t.maxY then
       [⟨t.maxX, query.getY⟩, ⟨t.minX, query.getY⟩] else []) ++
    [⟨t.minX, t.minY⟩, ⟨t.minX, t.maxY⟩, ⟨t.maxX, t.minY⟩, ⟨t.maxX, t.maxY⟩]
  let dists : List ℝ := cands.map (fun p => p.distance query)
  let maxDistance := dists.foldl (fun m e => max e m) 0
  let minDistance :=
    if t.responsible query then dists.foldl min 0
    else
      match dists with
      | [] => 0
      | e :: es => es.foldl min e
  (minDistance, maxDistance)

/-- `outOfReach(query, radius)`:
`EuclideanDistances(query).first > radius`. -/
noncomputable def outOfReach (t : QuadNode) (query : Point2D) (radius : ℝ) : Prop :=
  (EuclideanDistances t query).1 > radius

open Classical in
mutual

/-- `getElementsInEuclideanCircle(center, radius, result)`: the exact circle
query.  Leaves compare the squared coordinate differences against
`radius*radius` (`rsq`) and push matching identifiers onto the result
vector; internal nodes recurse into all children.  The model threads the
result vector as an accumulator.  The `assert(content[i] < sanityNodeLimit)`
is a debug no-op. -/
noncomputable def getElementsInEuclideanCircle : QuadNode → Point2D → ℝ → List ℕ → List ℕ
  | t@(.mk d ch), center, radius, result =>
    if outOfReach t center radius then result
    else if d.isLeaf then
      let rsq := radius * radius
      let queryX := center.getX
      let queryY := center.getY
      (d.content.zip d.positions).foldl
        (fun res cp =>
          let deltaX := cp.2.getX - queryX
          let deltaY := cp.2.getY - queryY
          if ((deltaX * deltaX + deltaY * deltaY : ℚ) : ℝ) < rsq then res ++ [cp.1] else res)
        result
    else
      getElementsInEuclideanCircleList ch center radius result

noncomputable def getElementsInEuclideanCircleList :
    List QuadNode → Point2D → ℝ → List ℕ → List ℕ
  | [], _, _, result => result
  | c :: cs, center, radius, result =>
      getElementsInEuclideanCircleList cs center radius
        (getElementsInEuclideanCircle c center radius result)

end

/-- Double-to-integer conversion (`i += delta` with `int i` and
`double delta`): truncation toward zero. -/
noncomputable def truncToInt (d : ℝ) : ℤ :=
  if 0 ≤ d then ⌊d⌋ else ⌈d⌉

/-- The branch condition of `getElementsProbabilistically` on internal nodes:
`expectedNeighbours < 4 || probUB < 1/1000`, where
`count expectedNeighbours = probUB*size()` truncates the product to an
unsigned integer, and `1/1000` is C++ *integer* division (value `0`) that is
only then converted to `double` for the comparison. -/
noncomputable def directSelectionCond (probUB : ℝ) (sz : ℕ) : Prop :=
  ⌊probUB * (sz : ℝ)⌋₊ < 4 ∨ probUB < ((1 / 1000 : ℤ) : ℝ)

/-- The leaf loop of `getElementsProbabilistically`:
`for (int i = 0; i < lsize; i++)` with a geometric jump `i += delta` first
(whenever `probUB < 1`), then evaluation of the true acceptance probability
at the point the index landed on.  Each `Aux::Random::real()` draw reads the
stream `rng` at the next position.  `fuel` bounds the iteration count; when
every jump is nonnegative (draws in `(0,1)`), `lsize` iterations suffice, so
the caller passes `lsize`; adversarial draws that would make the C++ loop
last longer (or not terminate) exhaust the fuel.  A negative index after a
negative jump reads out of bounds in C++ (`assert(i >= 0)` is debug-only);
the model reads the `getD` default. -/
noncomputable def leafJumpLoop (content : List ℕ) (positions : List Point2D)
    (euQuery : Point2D) (prob : ℝ → ℝ) (probUB probdenom : ℝ) (rng : ℕ → ℝ) :
    ℕ → ℤ → ℕ → ℕ → List ℕ → ℕ × List ℕ × ℕ
  | 0, _, rpos, tested, result => (tested, result, rpos)
  | fuel + 1, i, rpos, tested, result =>
    let lsize : ℤ := content.length
    if i < lsize then
      -- jump!
      let (i', rpos') :=
        if probUB < 1 then (i + truncToInt (Real.log (rng rpos) / probdenom), rpos + 1)
        else (i, rpos)
      if probUB < 1 ∧ i' ≥ lsize then (tested, result, rpos')
      else
        -- see where we've arrived
        let distance := (positions.getD i'.toNat ⟨0, 0⟩).distance euQuery
        let q := prob distance / probUB
        -- accept?
        let acc := rng rpos'
        let result' := if acc < q then result ++ [content.getD i'.toNat 0] else result
        leafJumpLoop content positions euQuery prob probUB probdenom rng
          fuel (i' + 1) (rpos' + 1) (tested + 1) result'
    else (tested, result, rpos)

mutual

/-- `maybeGetKthElement(upperBound, euQuery, prob, k, circleDenizens)`:
locate the k-th element of the subtree in leaf-traversal order by descending
through the children with cumulative subtree sizes, then accept it with
probability `prob(distance)/upperBound`.  (`assert(k < size())` is a debug
no-op.) -/
noncomputable def maybeGetKthElement (upperBound : ℝ) (euQuery : Point2D) (prob : ℝ → ℝ)
    (k : ℕ) (rng : ℕ → ℝ) (rpos : ℕ) : QuadNode → List ℕ → List ℕ × ℕ
  | .mk d ch, circleDenizens =>
    if d.isLeaf then
      let acceptance := prob ((d.positions.getD k ⟨0, 0⟩).distance euQuery) / upperBound
      if rng rpos < acceptance then (circleDenizens ++ [d.content.getD k 0], rpos + 1)
      else (circleDenizens, rpos + 1)
    else
      maybeGetKthChildLoop upperBound euQuery prob k rng rpos ch 0 circleDenizens

/-- The child loop of `maybeGetKthElement`: find the child containing the
k-th element (`k - offset < childsize`, with `offset ≤ k` a loop invariant
so that the unsigned subtraction of the source never wraps) and recurse,
breaking afterwards. -/
noncomputable def maybeGetKthChildLoop (upperBound : ℝ) (euQuery : Point2D) (prob : ℝ → ℝ)
    (k : ℕ) (rng : ℕ → ℝ) (rpos : ℕ) :
    List QuadNode → ℕ → List ℕ → List ℕ × ℕ
  | [], _, circleDenizens => (circleDenizens, rpos)
  | c :: cs, offset, circleDenizens =>
    if k - offset < c.size then
      maybeGetKthElement upperBound euQuery prob (k - offset) rng rpos c circleDenizens
    else
      maybeGetKthChildLoop upperBound euQuery prob k rng rpos cs (offset + c.size)
        circleDenizens

end

/-- The direct-candidate-selection loop of `getElementsProbabilistically` on
internal nodes: `for (index i = 0; i < stsize; i++)` with jump `i += delta`
and `maybeGetKthElement` on the index it lands on.  `index` is unsigned, so
after a negative jump the wrapped index fails `i < size()` and the loop
breaks; the model computes the jump target in `ℤ` and breaks when it is
negative or out of range, which is the same behaviour. -/
noncomputable def directSelectionLoop (t : QuadNode) (euQuery : Point2D) (prob : ℝ → ℝ)
    (probUB probdenom : ℝ) (rng : ℕ → ℝ) :
    ℕ → ℤ → ℕ → ℕ → List ℕ → ℕ × List ℕ × ℕ
  | 0, _, rpos, tested, result => (tested, result, rpos)
  | fuel + 1, i, rpos, tested, result =>
    let stsize : ℤ := t.size
    if i < stsize then
      let delta := truncToInt (Real.log (rng rpos) / probdenom)
      let j := i + delta
      if 0 ≤ j ∧ j < stsize then
        let (result', rpos') :=
          maybeGetKthElement probUB euQuery prob j.toNat rng (rpos + 1) t result
        directSelectionLoop t euQuery prob probUB probdenom rng
          fuel (j + 1) rpos' (tested + 1) result'
      else (tested, result, rpos + 1)
    else (tested, result, rpos)

open Classical in
mutual

/-- `getElementsProbabilistically(euQuery, prob, result)`: the probabilistic
soft-neighborhood query.  Returns the number of candidates tested, the
extended result vector, and the next position of the random stream.

The upper probability bound is clamped to `1` when above `0.5`; a zero bound
or a zero logarithmic denominator returns `0` candidates immediately.
(Mathlib's junk value `Real.log 0 = 0` makes the clamped case `probUB = 1`
also take the second early return, where IEEE arithmetic would produce
`-inf` and continue; no claim settled here depends on that path.  `probLB`
is only used in assertions and not modelled.) -/
noncomputable def getElementsProbabilistically :
    QuadNode → Point2D → (ℝ → ℝ) → (ℕ → ℝ) → ℕ → List ℕ → ℕ × List ℕ × ℕ
  | t@(.mk d ch), euQuery, prob, rng, rpos, result =>
    let distancePair := EuclideanDistances t euQuery
    let probUB0 := prob distancePair.1
    let probUB := if probUB0 > 0.5 then 1 else probUB0
    if probUB = 0 then (0, result, rpos)
    else
      let probdenom := Real.log (1 - probUB)
      if probdenom = 0 then (0, result, rpos)
      else if d.isLeaf then
        leafJumpLoop d.content d.positions euQuery prob probUB probdenom rng
          d.content.length 0 rpos 0 result
      else if directSelectionCond probUB t.size then
        -- select candidates directly instead of calling recursively
        directSelectionLoop t euQuery prob probUB probdenom rng t.size 0 rpos 0 result
      else
        -- carry on as normal
        getElementsProbabilisticallyList ch euQuery prob rng rpos 0 result

noncomputable def getElementsProbabilisticallyList :
    List QuadNode → Point2D → (ℝ → ℝ) → (ℕ → ℝ) → ℕ → ℕ → List ℕ → ℕ × List ℕ × ℕ
  | [], _, _, _, rpos, tested, result => (tested, result, rpos)
  | c :: cs, euQuery, prob, rng, rpos, tested, result =>
    let r := getElementsProbabilistically c euQuery prob rng rpos result
    getElementsProbabilisticallyList cs euQuery prob rng r.2.2 (tested + r.1) r.2.1

end

end QuadNode

/-- A step of tree usage: an insertion or a removal. -/
inductive TreeOp : Type where
  | insert (input : ℕ) (pos : Point2D)
  | remove (input : ℕ) (pos : Point2D)
deriving DecidableEq, Repr

/-- One operation applied to the root.  Insertion requires the documented
precondition `responsible(pos)` (asserted by the source); violating it is a
fatal contract violation, modelled as `none`. -/
def buildStep (fuel : ℕ) (t : QuadNode) : TreeOp → Option QuadNode
  | .insert input pos =>
      if t.responsible pos then t.addContent fuel input pos else none
  | .remove input pos => some (t.removeContent input pos).2

/-- A tree built from a fresh root by a sequence of insertions and removals. -/
def build (lower upper : Point2D) (capacity : ℕ) (splitTheoretical : Bool) (fuel : ℕ)
    (ops : List TreeOp) : Option QuadNode :=
  ops.foldlM (fun t op => buildStep fuel t op) (mkQuadNode lower upper capacity splitTheoretical)

/-- The region test of `responsible`, phrased on the scalar data alone. -/
def NodeData.containsPos (d : NodeData) (pos : Point2D) : Prop :=
  pos.getX ≥ d.minX ∧ pos.getY ≥ d.minY ∧ pos.getX < d.maxX ∧ pos.getY < d.maxY

instance (d : NodeData) (pos : Point2D) : Decidable (d.containsPos pos) := by
  unfold NodeData.containsPos; infer_instance

namespace QuadNode

mutual

/-- The structural invariant maintained by the tree operations and needed by
the exact circle query: at every node, the two leaf buffers are paired
(equal length) and every position stored in the subtree lies inside the
node's region. -/
def Inv : QuadNode → Prop
  | .mk d ch =>
      d.content.length = d.positions.length ∧
      (∀ p ∈ (QuadNode.mk d ch).getCoordinates, (QuadNode.mk d ch).responsible p) ∧
      InvList ch

def InvList : List QuadNode → Prop
  | [] => True
  | c :: cs => Inv c ∧ InvList cs

end

mutual

/-- The size/capacity invariant behind the leaf-buffer bound: capacities are
at least the coarsening limit and inherited by children, every leaf buffer
holds at most `capacity - 1` elements, and at internal nodes the cached
`subTreeSize` is an upper bound for the true element count. -/
def SizeInv : QuadNode → Prop
  | .mk d ch =>
      4 ≤ d.capacity ∧
      (d.isLeaf = true → d.content.length ≤ d.capacity - 1) ∧
      (d.isLeaf = false → realCountList ch ≤ d.subTreeSize) ∧
      SizeInvList d.capacity ch

def SizeInvList : ℕ → List QuadNode → Prop
  | _, [] => True
  | cap, c :: cs => (SizeInv c ∧ c.capacity = cap) ∧ SizeInvList cap cs

end

/-- Membership of a point in the *closed* rectangle of a node's region (the
geometric region whose distance extrema `EuclideanDistances` computes). -/
def inClosedRect (t : QuadNode) (p : Point2D) : Prop :=
  t.minX ≤ p.x ∧ p.x ≤ t.maxX ∧ t.minY ≤ p.y ∧ p.y ≤ t.maxY

open Classical in
/-- Modelled from the specification of the exact range query: the set of
stored identifiers whose Euclidean distance to the center is strictly less
than the radius, produced by a brute-force scan over all stored
`(identifier, position)` pairs. -/
noncomputable def bruteForceCircleQuery (t : QuadNode) (center : Point2D) (radius : ℝ) :
    List ℕ :=
  ((t.storedPairs).filter (fun pr => decide (pr.2.distance center < radius))).map Prod.fst

/-- A small example tree used by several witnesses: one element stored in a
fresh root leaf over the unit square. -/
def exampleLeaf : QuadNode :=
  .mk { minX := 0, minY := 0, maxX := 1, maxY := 1, capacity := 4, subTreeSize := 0,
        content := [3], positions := [⟨1/2, 1/2⟩], isLeaf := true,
        splitTheoretical := true, ID := 0 } []

/-- The operation list that produces `exampleLeaf`. -/
def exampleOps : List TreeOp := [.insert 3 ⟨1/2, 1/2⟩]

/-- Scalar data of an internal example node over `[0,4)²` with two stored
elements, used to exhibit coarsening. -/
def coarsenData : NodeData :=
  { minX := 0, minY := 0, maxX := 4, maxY := 4, capacity := 5, subTreeSize := 2,
    content := [], positions := [], isLeaf := false, splitTheoretical := true, ID := 0 }

/-- Four leaf children of `coarsenData`'s region: element `7` at `(1,1)` in
the southwest quadrant and element `8` at `(3,3)` in the northeast one. -/
def coarsenChildren : List QuadNode :=
  [ .mk { minX := 0, minY := 0, maxX := 2, maxY := 2, capacity := 5, subTreeSize := 0,
          content := [7], positions := [⟨1, 1⟩], isLeaf := true,
          splitTheoretical := true, ID := 0 } [],
    .mk { minX := 2, minY := 0, maxX := 4, maxY := 2, capacity := 5, subTreeSize := 0,
          content := [], positions := [], isLeaf := true,
          splitTheoretical := true, ID := 0 } [],
    .mk { minX := 0, minY := 2, maxX := 2, maxY := 4, capacity := 5, subTreeSize := 0,
          content := [], positions := [], isLeaf := true,
          splitTheoretical := true, ID := 0 } [],
    .mk { minX := 2, minY := 2, maxX := 4, maxY := 4, capacity := 5, subTreeSize := 0,
          content := [8], positions := [⟨3, 3⟩], isLeaf := true,
          splitTheoretical := true, ID := 0 } [] ]

mutual

/-- The pairing invariant alone: at every node the identifier buffer and the
position buffer have the same length, so entry `i` of one belongs to entry
`i` of the other. -/
def Paired : QuadNode → Prop
  | .mk d ch => d.content.length = d.positions.length ∧ PairedList ch

def PairedList : List QuadNode → Prop
  | [] => True
  | c :: cs => Paired c ∧ PairedList cs

end

mutual

/-- A tree with every identifier buffer erased; two trees with the same
`contentErased` image differ at most in their stored identifiers (never in
positions, regions, sizes or structure). -/
def contentErased : QuadNode → QuadNode
  | .mk d ch => .mk { d with content := [] } (contentErasedList ch)

def contentErasedList : List QuadNode → List QuadNode
  | [] => []
  | c :: cs => contentErased c :: contentErasedList cs

end

mutual

/-- Every leaf in the subtree keeps its buffer within `capacity - 1`
elements (the spec's steady-state leaf bound). -/
def leafBufferBounded : QuadNode → Prop
  | .mk d ch => (d.isLeaf = true → d.content.length ≤ d.capacity - 1) ∧
      leafBufferBoundedList ch

def leafBufferBoundedList : List QuadNode → Prop
  | [] => True
  | c :: cs => leafBufferBounded c ∧ leafBufferBoundedList cs

end

/-- An operation sequence on region `[0,4)²`: four insertions (one per
quadrant after the forced split) followed by one removal. -/
def c4ops : List TreeOp :=
  [.insert 0 ⟨1, 1⟩, .insert 1 ⟨3, 3⟩, .insert 2 ⟨3, 1⟩, .insert 3 ⟨1, 3⟩,
   .remove 0 ⟨1, 1⟩]

/-- A capacity-2 leaf with the given region and buffers (intermediate state
of the `c4ops` scenario). -/
def c4leaf (a b c e : ℚ) (cont : List ℕ) (ps : List Point2D) : QuadNode :=
  .mk { minX := a, minY := b, maxX := c, maxY := e, capacity := 2, subTreeSize := 0,
        content := cont, positions := ps, isLeaf := true, splitTheoretical := true,
        ID := 0 } []

end QuadNode

/-! ## Theorems -/

namespace QuadNode

/-- Structural induction over the nested tree type: to prove `P` for a node
it suffices to prove it assuming `P` for all children. -/
theorem inductionOn (P : QuadNode → Prop)
    (ih : ∀ d ch, (∀ c ∈ ch, P c) → P (.mk d ch)) : ∀ t, P t
  | .mk d ch => ih d ch (fun c hc => inductionOn P ih c)
termination_by t => sizeOf t
decreasing_by
  have h1 := List.sizeOf_lt_of_mem hc
  simp [QuadNode.mk.sizeOf_spec]
  omega

theorem responsible_mk (d : NodeData) (ch : List QuadNode) (p : Point2D) :
    (QuadNode.mk d ch).responsible p ↔ d.containsPos p := Iff.rfl

theorem InvList_iff (ts : List QuadNode) : InvList ts ↔ ∀ c ∈ ts, Inv c := by
  induction ts with
  | nil => simp [InvList]
  | cons c cs ih => simp [InvList, ih]

theorem SizeInvList_iff (cap : ℕ) (ts : List QuadNode) :
    SizeInvList cap ts ↔ ∀ c ∈ ts, SizeInv c ∧ c.capacity = cap := by
  induction ts with
  | nil => simp [SizeInvList]
  | cons c cs ih => simp [SizeInvList, ih, and_assoc]

theorem Inv_mk (d : NodeData) (ch : List QuadNode) :
    Inv (.mk d ch) ↔
      d.content.length = d.positions.length ∧
      (∀ p ∈ (QuadNode.mk d ch).getCoordinates, (QuadNode.mk d ch).responsible p) ∧
      ∀ c ∈ ch, Inv c := by
  rw [Inv, InvList_iff]

theorem Inv_pairing (t : QuadNode) (h : Inv t) : t.content.length = t.positions.length := by
  obtain ⟨d, ch⟩ := t
  exact ((Inv_mk d ch).mp h).1

theorem getElementsList_eq (ts : List QuadNode) :
    getElementsList ts = (ts.map getElements).flatten := by
  induction ts with
  | nil => simp [getElementsList]
  | cons c cs ih => simp [getElementsList, ih]

theorem getCoordinatesList_eq (ts : List QuadNode) :
    getCoordinatesList ts = (ts.map getCoordinates).flatten := by
  induction ts with
  | nil => simp [getCoordinatesList]
  | cons c cs ih => simp [getCoordinatesList, ih]

theorem storedPairsList_eq (ts : List QuadNode) :
    storedPairsList ts = (ts.map storedPairs).flatten := by
  induction ts with
  | nil => simp [storedPairsList]
  | cons c cs ih => simp [storedPairsList, ih]

theorem getCoordinates_eq (t : QuadNode) :
    t.getCoordinates = if t.isLeaf then t.positions else getCoordinatesList t.children := by
  obtain ⟨d, ch⟩ := t; rfl

theorem getElements_eq (t : QuadNode) :
    t.getElements = if t.isLeaf then t.content else getElementsList t.children := by
  obtain ⟨d, ch⟩ := t; rfl

theorem storedPairs_eq (t : QuadNode) :
    t.storedPairs = if t.isLeaf then t.content.zip t.positions
      else storedPairsList t.children := by
  obtain ⟨d, ch⟩ := t; rfl

theorem realCount_eq (t : QuadNode) :
    t.realCount = if t.isLeaf then t.content.length else realCountList t.children := by
  obtain ⟨d, ch⟩ := t; rfl

theorem realCountList_eq (ts : List QuadNode) :
    realCountList ts = (ts.map realCount).sum := by
  induction ts with
  | nil => simp [realCountList]
  | cons c cs ih => simp [realCountList, ih]

/-- A stored pair's position is among the stored coordinates. -/
theorem mem_getCoordinates_of_mem_storedPairs :
    ∀ t : QuadNode, ∀ pr ∈ t.storedPairs, pr.2 ∈ t.getCoordinates := by
  refine inductionOn _ ?_
  intro d ch ih pr hpr
  by_cases hL : d.isLeaf
  · simp only [storedPairs, hL, if_pos] at hpr
    simp only [getCoordinates, hL, if_pos]
    exact (List.of_mem_zip hpr).2
  · simp only [storedPairs, hL, if_neg, Bool.not_eq_true, storedPairsList_eq,
      List.mem_flatten, List.mem_map] at hpr
    obtain ⟨l, ⟨c, hc, rfl⟩, hmem⟩ := hpr
    simp only [getCoordinates, hL, if_neg, Bool.not_eq_true, getCoordinatesList_eq,
      List.mem_flatten, List.mem_map]
    exact ⟨c.getCoordinates, ⟨c, hc, rfl⟩, ih c hc pr hmem⟩

/-- Under `Inv`, every stored position lies inside the node's region. -/
theorem responsible_of_mem_storedPairs (t : QuadNode) (hInv : Inv t) :
    ∀ pr ∈ t.storedPairs, t.responsible pr.2 := by
  obtain ⟨d, ch⟩ := t
  intro pr hpr
  exact (Inv_mk d ch).mp hInv |>.2.1 pr.2 (mem_getCoordinates_of_mem_storedPairs _ pr hpr)

theorem removeContentList_eq (ts : List QuadNode) (input : ℕ) (pos : Point2D) :
    removeContentList ts input pos = ts.map (fun c => removeContent c input pos) := by
  induction ts with
  | nil => simp [removeContentList]
  | cons c cs ih => simp [removeContentList, ih]

/-- Removal outside the node's region returns `(false, unchanged)`. -/
theorem removeContent_not_responsible (t : QuadNode) (input : ℕ) (pos : Point2D)
    (h : ¬ t.responsible pos) : t.removeContent input pos = (false, t) := by
  obtain ⟨d, ch⟩ := t
  rw [removeContent]
  simp [h]

/-- Unfolding: removal at a responsible leaf. -/
theorem removeContent_leaf_eq (d : NodeData) (ch : List QuadNode) (input : ℕ)
    (pos : Point2D) (hresp : (QuadNode.mk d ch).responsible pos) (hleaf : d.isLeaf = true) :
    removeContent (.mk d ch) input pos =
      match d.content.findIdx? (· == input) with
      | some i => (true, .mk { d with content := d.content.eraseIdx i,
                                      positions := d.positions.eraseIdx i } ch)
      | none => (false, .mk d ch) := by
  rw [removeContent]
  simp only [data_mk, hleaf, if_true, if_neg (not_not_intro hresp)]

/-- A leaf stays a leaf under removal. -/
theorem removeContent_isLeaf_of_leaf (t : QuadNode) (input : ℕ) (pos : Point2D)
    (h : t.isLeaf = true) : ((t.removeContent input pos).2).isLeaf = true := by
  obtain ⟨d, ch⟩ := t
  by_cases hresp : (QuadNode.mk d ch).responsible pos
  · rw [removeContent_leaf_eq d ch input pos hresp (by simpa using h)]
    cases hfind : d.content.findIdx? (· == input) with
    | some i => simpa using h
    | none => simpa using h
  · rw [removeContent_not_responsible _ _ _ hresp]
    exact h

/-- Unfolding: removal at a responsible internal node when no child reports
success. -/
theorem removeContent_internal_notRemoved (d : NodeData) (ch : List QuadNode) (input : ℕ)
    (pos : Point2D) (hresp : (QuadNode.mk d ch).responsible pos) (hleaf : d.isLeaf = false)
    (hrem : ((ch.map fun c => removeContent c input pos).any fun r => r.1) = false) :
    removeContent (.mk d ch) input pos =
      (false, .mk d ((ch.map fun c => removeContent c input pos).map fun r => r.2)) := by
  simp only [removeContent, removeContentList_eq, data_mk, hresp, not_true, if_false, hleaf,
    Bool.false_eq_true, hrem, false_and, and_false]
  rw [← hleaf]

/-- Unfolding: removal at a responsible internal node when a child reports
success and the coarsening condition holds. -/
theorem removeContent_internal_coarsen (d : NodeData) (ch : List QuadNode) (input : ℕ)
    (pos : Point2D) (hresp : (QuadNode.mk d ch).responsible pos) (hleaf : d.isLeaf = false)
    (hrem : ((ch.map fun c => removeContent c input pos).any fun r => r.1) = true)
    (hall : (ch.all fun c => c.isLeaf) = true) (hsize : d.subTreeSize - 1 < coarsenLimit) :
    removeContent (.mk d ch) input pos =
      (true, .mk { d with subTreeSize := d.subTreeSize - 1,
                          content := ((((ch.map fun c => removeContent c input pos).map
                            fun r => r.2).map fun c => c.content)).flatten,
                          positions := ((((ch.map fun c => removeContent c input pos).map
                            fun r => r.2).map fun c => c.positions)).flatten,
                          isLeaf := true } []) := by
  simp only [removeContent, removeContentList_eq, data_mk, hresp, not_true, if_false, hleaf,
    Bool.false_eq_true, hrem, hall, hsize, if_true, and_true, true_and, and_self]

/-- Unfolding: removal at a responsible internal node when a child reports
success but the coarsening condition fails. -/
theorem removeContent_internal_noCoarsen (d : NodeData) (ch : List QuadNode) (input : ℕ)
    (pos : Point2D) (hresp : (QuadNode.mk d ch).responsible pos) (hleaf : d.isLeaf = false)
    (hrem : ((ch.map fun c => removeContent c input pos).any fun r => r.1) = true)
    (hno : ¬ ((ch.all fun c => c.isLeaf) = true ∧ d.subTreeSize - 1 < coarsenLimit)) :
    removeContent (.mk d ch) input pos =
      (true, .mk { d with subTreeSize := d.subTreeSize - 1 }
        ((ch.map fun c => removeContent c input pos).map fun r => r.2)) := by
  simp only [removeContent, removeContentList_eq, data_mk, hresp, not_true, if_false, hleaf,
    Bool.false_eq_true, hrem, if_true, true_and]
  rw [if_neg hno]

/-- `removeContent` never touches the region, capacity, policy, or `ID`
fields of a node. -/
theorem removeContent_data_eq (t : QuadNode) (input : ℕ) (pos : Point2D) :
    ((t.removeContent input pos).2).minX = t.minX ∧
    ((t.removeContent input pos).2).minY = t.minY ∧
    ((t.removeContent input pos).2).maxX = t.maxX ∧
    ((t.removeContent input pos).2).maxY = t.maxY ∧
    ((t.removeContent input pos).2).capacity = t.capacity ∧
    ((t.removeContent input pos).2).splitTheoretical = t.splitTheoretical ∧
    ((t.removeContent input pos).2).ID = t.ID := by
  obtain ⟨d, ch⟩ := t
  by_cases hresp : (QuadNode.mk d ch).responsible pos
  · by_cases hleaf : d.isLeaf = true
    · rw [removeContent_leaf_eq d ch input pos hresp hleaf]
      cases hfind : d.content.findIdx? (· == input) with
      | some i => exact ⟨rfl, rfl, rfl, rfl, rfl, rfl, rfl⟩
      | none => exact ⟨rfl, rfl, rfl, rfl, rfl, rfl, rfl⟩
    · replace hleaf : d.isLeaf = false := by simpa using hleaf
      by_cases hrem : ((ch.map fun c => removeContent c input pos).any fun r => r.1) = true
      · by_cases hco : (ch.all fun c => c.isLeaf) = true ∧ d.subTreeSize - 1 < coarsenLimit
        · rw [removeContent_internal_coarsen d ch input pos hresp hleaf hrem hco.1 hco.2]
          exact ⟨rfl, rfl, rfl, rfl, rfl, rfl, rfl⟩
        · rw [removeContent_internal_noCoarsen d ch input pos hresp hleaf hrem hco]
          exact ⟨rfl, rfl, rfl, rfl, rfl, rfl, rfl⟩
      · have hrem' : ((ch.map fun c => removeContent c input pos).any fun r => r.1) = false := by
          simpa using hrem
        rw [removeContent_internal_notRemoved d ch input pos hresp hleaf hrem']
        exact ⟨rfl, rfl, rfl, rfl, rfl, rfl, rfl⟩
  · rw [removeContent_not_responsible _ _ _ hresp]
    exact ⟨rfl, rfl, rfl, rfl, rfl, rfl, rfl⟩

/-- The result of removal is `responsible` for the same points as the
original node. -/
theorem removeContent_responsible_iff (t : QuadNode) (input : ℕ) (pos q : Point2D) :
    ((t.removeContent input pos).2).responsible q ↔ t.responsible q := by
  obtain ⟨h1, h2, h3, h4, -⟩ := removeContent_data_eq t input pos
  unfold responsible
  rw [h1, h2, h3, h4]

/-- When removal reports "not found", the tree is left entirely unchanged
(same structure, same buffers, same cached sizes). -/
theorem removeContent_false_eq :
    ∀ (t : QuadNode) (input : ℕ) (pos : Point2D),
      (t.removeContent input pos).1 = false → (t.removeContent input pos).2 = t := by
  intro t
  induction t using inductionOn with
  | ih d ch ih =>
    intro input pos h
    by_cases hresp : (QuadNode.mk d ch).responsible pos
    · by_cases hleaf : d.isLeaf = true
      · rw [removeContent_leaf_eq d ch input pos hresp hleaf] at h ⊢
        cases hfind : d.content.findIdx? (· == input) with
        | some i => rw [hfind] at h; simp at h
        | none => rfl
      · replace hleaf : d.isLeaf = false := by simpa using hleaf
        by_cases hrem : ((ch.map fun c => removeContent c input pos).any fun r => r.1) = true
        · by_cases hco : (ch.all fun c => c.isLeaf) = true ∧ d.subTreeSize - 1 < coarsenLimit
          · rw [removeContent_internal_coarsen d ch input pos hresp hleaf hrem hco.1 hco.2] at h
            simp at h
          · rw [removeContent_internal_noCoarsen d ch input pos hresp hleaf hrem hco] at h
            simp at h
        · replace hrem : ((ch.map fun c => removeContent c input pos).any fun r => r.1)
              = false := by simpa using hrem
          rw [removeContent_internal_notRemoved d ch input pos hresp hleaf hrem]
          have hch : ∀ c ∈ ch, (removeContent c input pos).2 = c := by
            intro c hc
            apply ih c hc
            rw [List.any_eq_false] at hrem
            have := hrem _ (List.mem_map_of_mem (fun c => removeContent c input pos) hc)
            simpa using this
          simp only [List.map_map]
          congr 1
          calc List.map ((fun r => r.2) ∘ fun c => removeContent c input pos) ch
              = ch.map id := List.map_congr_left (fun c hc => hch c hc)
            _ = ch := List.map_id ch
    · rw [removeContent_not_responsible _ _ _ hresp]

/-- Every position stored after a removal was stored before it. -/
theorem removeContent_getCoordinates_subset :
    ∀ (t : QuadNode) (input : ℕ) (pos : Point2D),
      ∀ p ∈ ((t.removeContent input pos).2).getCoordinates, p ∈ t.getCoordinates := by
  intro t
  induction t using inductionOn with
  | ih d ch ih =>
    intro input pos p hp
    by_cases hresp : (QuadNode.mk d ch).responsible pos
    · by_cases hleaf : d.isLeaf = true
      · rw [removeContent_leaf_eq d ch input pos hresp hleaf] at hp
        cases hfind : d.content.findIdx? (· == input) with
        | some i =>
            rw [hfind] at hp
            simp only [getCoordinates, data_mk, hleaf, if_true] at hp ⊢
            exact List.mem_of_mem_eraseIdx hp
        | none => rw [hfind] at hp; exact hp
      · replace hleaf : d.isLeaf = false := by simpa using hleaf
        by_cases hrem : ((ch.map fun c => removeContent c input pos).any fun r => r.1) = true
        · by_cases hco : (ch.all fun c => c.isLeaf) = true ∧ d.subTreeSize - 1 < coarsenLimit
          · rw [removeContent_internal_coarsen d ch input pos hresp hleaf hrem hco.1 hco.2] at hp
            simp only [getCoordinates, data_mk, if_true, List.map_map, List.mem_flatten,
              List.mem_map, Function.comp_def] at hp
            obtain ⟨l, ⟨c, hc, rfl⟩, hmem⟩ := hp
            have hcleaf : c.isLeaf = true := by
              rw [List.all_eq_true] at hco
              exact hco.1 c hc
            have hcleaf' := removeContent_isLeaf_of_leaf c input pos hcleaf
            have hmem' : p ∈ ((removeContent c input pos).2).getCoordinates := by
              rw [getCoordinates_eq, if_pos hcleaf']
              exact hmem
            have := ih c hc input pos p hmem'
            simp only [getCoordinates, data_mk, hleaf, Bool.false_eq_true, if_false,
              getCoordinatesList_eq, List.mem_flatten, List.mem_map]
            exact ⟨c.getCoordinates, ⟨c, hc, rfl⟩, this⟩
          · rw [removeContent_internal_noCoarsen d ch input pos hresp hleaf hrem hco] at hp
            simp only [getCoordinates, data_mk, hleaf, Bool.false_eq_true, if_false,
              getCoordinatesList_eq, List.map_map, List.mem_flatten, List.mem_map,
              Function.comp_def] at hp
            obtain ⟨l, ⟨c, hc, rfl⟩, hmem⟩ := hp
            have := ih c hc input pos p hmem
            simp only [getCoordinates, data_mk, hleaf, Bool.false_eq_true, if_false,
              getCoordinatesList_eq, List.mem_flatten, List.mem_map]
            exact ⟨c.getCoordinates, ⟨c, hc, rfl⟩, this⟩
        · replace hrem : ((ch.map fun c => removeContent c input pos).any fun r => r.1)
              = false := by simpa using hrem
          have h1 : (removeContent (.mk d ch) input pos).1 = false := by
            rw [removeContent_internal_notRemoved d ch input pos hresp hleaf hrem]
          rw [removeContent_false_eq _ _ _ h1] at hp
          exact hp
    · rw [removeContent_not_responsible _ _ _ hresp] at hp
      exact hp

/-- Removal preserves the structural invariant `Inv`. -/
theorem removeContent_Inv :
    ∀ (t : QuadNode), Inv t → ∀ (input : ℕ) (pos : Point2D),
      Inv ((t.removeContent input pos).2) := by
  intro t
  induction t using inductionOn with
  | ih d ch ih =>
    intro hInv input pos
    obtain ⟨hpair, hcoords, hchildren⟩ := (Inv_mk d ch).mp hInv
    have hcoordsResp : ∀ q ∈ ((removeContent (.mk d ch) input pos).2).getCoordinates,
        ((removeContent (.mk d ch) input pos).2).responsible q := by
      intro q hq
      rw [removeContent_responsible_iff]
      exact hcoords q (removeContent_getCoordinates_subset _ input pos q hq)
    by_cases hresp : (QuadNode.mk d ch).responsible pos
    · by_cases hleaf : d.isLeaf = true
      · rw [removeContent_leaf_eq d ch input pos hresp hleaf] at hcoordsResp ⊢
        cases hfind : d.content.findIdx? (· == input) with
        | some i =>
            simp only [hfind] at hcoordsResp ⊢
            rw [Inv_mk]
            refine ⟨?_, hcoordsResp, fun c hc => hchildren c hc⟩
            have hi : i < d.content.length :=
              (List.findIdx?_eq_some_iff_findIdx_eq.mp hfind).1
            simp only [List.length_eraseIdx_of_lt hi,
              List.length_eraseIdx_of_lt (hpair ▸ hi), hpair]
        | none => simp only [hfind] at hcoordsResp ⊢; exact hInv
      · replace hleaf : d.isLeaf = false := by simpa using hleaf
        by_cases hrem : ((ch.map fun c => removeContent c input pos).any fun r => r.1) = true
        · have hchInv : ∀ c ∈ ch, Inv ((removeContent c input pos).2) := fun c hc =>
            ih c hc (hchildren c hc) input pos
          by_cases hco : (ch.all fun c => c.isLeaf) = true ∧ d.subTreeSize - 1 < coarsenLimit
          · rw [removeContent_internal_coarsen d ch input pos hresp hleaf hrem
              hco.1 hco.2] at hcoordsResp ⊢
            rw [Inv_mk]
            refine ⟨?_, hcoordsResp, by simp⟩
            simp only [data_mk, List.length_flatten, List.map_map, Function.comp_def]
            congr 1
            apply List.map_congr_left
            intro c hc
            exact Inv_pairing _ (hchInv c hc)
          · rw [removeContent_internal_noCoarsen d ch input pos hresp hleaf hrem
              hco] at hcoordsResp ⊢
            rw [Inv_mk]
            refine ⟨hpair, hcoordsResp, ?_⟩
            intro c' hc'
            simp only [List.map_map, List.mem_map, Function.comp_def] at hc'
            obtain ⟨c, hc, rfl⟩ := hc'
            exact hchInv c hc
        · replace hrem : ((ch.map fun c => removeContent c input pos).any fun r => r.1)
              = false := by simpa using hrem
          have h1 : (removeContent (.mk d ch) input pos).1 = false := by
            rw [removeContent_internal_notRemoved d ch input pos hresp hleaf hrem]
          rw [removeContent_false_eq _ _ _ h1]
          exact hInv
    · rw [removeContent_not_responsible _ _ _ hresp]
      exact hInv

/-- Removing an identifier that is not stored anywhere in the subtree
reports "not found" and leaves the tree unchanged. -/
theorem removeContent_not_mem :
    ∀ (t : QuadNode) (input : ℕ) (pos : Point2D), input ∉ t.getElements →
      t.removeContent input pos = (false, t) := by
  intro t
  induction t using inductionOn with
  | ih d ch ih =>
    intro input pos h
    by_cases hresp : (QuadNode.mk d ch).responsible pos
    · by_cases hleaf : d.isLeaf = true
      · rw [removeContent_leaf_eq d ch input pos hresp hleaf]
        have hfind : d.content.findIdx? (· == input) = none := by
          rw [List.findIdx?_eq_none_iff]
          intro x hx
          simp only [getElements, data_mk, hleaf, if_true] at h
          simp only [beq_eq_false_iff_ne, ne_eq]
          rintro rfl
          exact h hx
        rw [hfind]
      · replace hleaf : d.isLeaf = false := by simpa using hleaf
        have hch : ∀ c ∈ ch, removeContent c input pos = (false, c) := by
          intro c hc
          apply ih c hc
          intro hmem
          apply h
          simp only [getElements, data_mk, hleaf, Bool.false_eq_true, if_false,
            getElementsList_eq, List.mem_flatten, List.mem_map]
          exact ⟨c.getElements, ⟨c, hc, rfl⟩, hmem⟩
        have hrem : ((ch.map fun c => removeContent c input pos).any fun r => r.1) = false := by
          rw [List.any_eq_false]
          intro r hr
          rw [List.mem_map] at hr
          obtain ⟨c, hc, rfl⟩ := hr
          rw [hch c hc]
          simp
        rw [removeContent_internal_notRemoved d ch input pos hresp hleaf hrem]
        have : (ch.map fun c => removeContent c input pos).map (fun r => r.2) = ch := by
          rw [List.map_map]
          calc List.map ((fun r => r.2) ∘ fun c => removeContent c input pos) ch
              = ch.map id := List.map_congr_left (fun c hc => by simp [hch c hc])
            _ = ch := List.map_id ch
        rw [this]
    · exact removeContent_not_responsible _ _ _ hresp

/-- A stored pair's identifier is among the stored elements. -/
theorem mem_getElements_of_mem_storedPairs :
    ∀ t : QuadNode, ∀ pr ∈ t.storedPairs, pr.1 ∈ t.getElements := by
  refine inductionOn _ ?_
  intro d ch ih pr hpr
  by_cases hL : d.isLeaf
  · simp only [storedPairs, hL, if_pos] at hpr
    simp only [getElements, hL, if_pos]
    exact (List.of_mem_zip hpr).1
  · simp only [storedPairs, hL, if_neg, Bool.not_eq_true, storedPairsList_eq,
      List.mem_flatten, List.mem_map] at hpr
    obtain ⟨l, ⟨c, hc, rfl⟩, hmem⟩ := hpr
    simp only [getElements, hL, if_neg, Bool.not_eq_true, getElementsList_eq,
      List.mem_flatten, List.mem_map]
    exact ⟨c.getElements, ⟨c, hc, rfl⟩, ih c hc pr hmem⟩

/-- Under `Inv`, the number of stored pairs is the true element count. -/
theorem storedPairs_length :
    ∀ t : QuadNode, Inv t → t.storedPairs.length = t.realCount := by
  refine inductionOn _ ?_
  intro d ch ih hInv
  obtain ⟨hpair, -, hchildren⟩ := (Inv_mk d ch).mp hInv
  by_cases hL : d.isLeaf
  · simp only [storedPairs, realCount, hL, if_pos, List.length_zip, hpair, min_self]
  · simp only [storedPairs, realCount, hL, if_neg, Bool.not_eq_true, storedPairsList_eq,
      realCountList_eq, List.length_flatten, List.map_map, Function.comp_def]
    congr 1
    exact List.map_congr_left (fun c hc => ih c hc (hchildren c hc))

/-- Removing a stored pair whose identifier occurs exactly once succeeds and
removes exactly one element. -/
theorem removeContent_found :
    ∀ t : QuadNode, Inv t → ∀ (input : ℕ) (pos : Point2D),
      (input, pos) ∈ t.storedPairs → t.getElements.count input = 1 →
      (t.removeContent input pos).1 = true ∧
      ((t.removeContent input pos).2).realCount + 1 = t.realCount := by
  intro t
  induction t using inductionOn with
  | ih d ch ih =>
    intro hInv input pos hmem hcount
    have hresp : (QuadNode.mk d ch).responsible pos :=
      responsible_of_mem_storedPairs _ hInv (input, pos) hmem
    obtain ⟨hpair, -, hchildren⟩ := (Inv_mk d ch).mp hInv
    by_cases hleaf : d.isLeaf = true
    · simp only [storedPairs, data_mk, hleaf, if_true] at hmem
      have hin : input ∈ d.content := (List.of_mem_zip hmem).1
      rw [removeContent_leaf_eq d ch input pos hresp hleaf]
      cases hfind : d.content.findIdx? (· == input) with
      | none =>
          exfalso
          rw [List.findIdx?_eq_none_iff] at hfind
          simpa using hfind input hin
      | some i =>
          have hi : i < d.content.length :=
            (List.findIdx?_eq_some_iff_findIdx_eq.mp hfind).1
          have hlen : 0 < d.content.length := Nat.lt_of_le_of_lt (Nat.zero_le i) hi
          refine ⟨rfl, ?_⟩
          simp only [realCount, data_mk, hleaf, if_true, List.length_eraseIdx_of_lt hi]
          omega
    · replace hleaf : d.isLeaf = false := by simpa using hleaf
      simp only [storedPairs, data_mk, hleaf, Bool.false_eq_true, if_false] at hmem
      simp only [getElements, data_mk, hleaf, Bool.false_eq_true, if_false] at hcount
      -- the child loop: exactly the child holding the pair removes it
      have listLemma : ∀ cs : List QuadNode, (∀ c ∈ cs, c ∈ ch) →
          (input, pos) ∈ storedPairsList cs →
          (getElementsList cs).count input = 1 →
          ((cs.map fun c => removeContent c input pos).any fun r => r.1) = true ∧
          realCountList ((cs.map fun c => removeContent c input pos).map fun r => r.2) + 1 =
            realCountList cs := by
        intro cs
        induction cs with
        | nil => intro _ h; simp [storedPairsList] at h
        | cons c cs ihcs =>
          intro hsub hmem' hcount'
          simp only [storedPairsList] at hmem'
          simp only [getElementsList, List.count_append] at hcount'
          rcases List.mem_append.mp hmem' with hhead | htail
          · -- the pair sits in the head child
            have hc1 : (getElements c).count input ≥ 1 :=
              List.one_le_count_iff.mpr (mem_getElements_of_mem_storedPairs c _ hhead)
            have hc0 : (getElementsList cs).count input = 0 := by omega
            have hcc : (getElements c).count input = 1 := by omega
            obtain ⟨hfst, hdec⟩ := ih c (hsub c (by simp)) (hchildren c (hsub c (by simp)))
              input pos hhead hcc
            have htailun : ∀ c' ∈ cs, removeContent c' input pos = (false, c') := by
              intro c' hc'
              apply removeContent_not_mem
              intro hmem''
              have : (getElementsList cs).count input ≥ 1 := by
                rw [getElementsList_eq]
                exact List.one_le_count_iff.mpr
                  (List.mem_flatten.mpr ⟨c'.getElements, List.mem_map_of_mem _ hc', hmem''⟩)
              omega
            constructor
            · simp only [List.map_cons, List.any_cons, hfst, Bool.true_or]
            · simp only [List.map_cons, realCountList]
              have : realCountList ((cs.map fun c => removeContent c input pos).map
                  fun r => r.2) = realCountList cs := by
                congr 1
                rw [List.map_map]
                calc List.map ((fun r => r.2) ∘ fun c => removeContent c input pos) cs
                    = cs.map id := List.map_congr_left (fun c' hc' => by
                        simp [htailun c' hc'])
                  _ = cs := List.map_id cs
              rw [this]
              omega
          · -- the pair sits in a tail child
            have htc : (getElementsList cs).count input ≥ 1 := by
              rw [getElementsList_eq]
              refine List.one_le_count_iff.mpr (List.mem_flatten.mpr ?_)
              obtain ⟨l, hl, hmem''⟩ : ∃ l, (∃ c' ∈ cs, storedPairs c' = l) ∧
                  (input, pos) ∈ l := by
                simpa only [storedPairsList_eq, List.mem_flatten, List.mem_map]
                  using htail
              obtain ⟨c', hc', rfl⟩ := hl
              exact ⟨c'.getElements, List.mem_map_of_mem _ hc',
                mem_getElements_of_mem_storedPairs c' _ hmem''⟩
            have hc0 : (getElements c).count input = 0 := by omega
            have hcc : (getElementsList cs).count input = 1 := by omega
            obtain ⟨hfst, hdec⟩ := ihcs (fun c' hc' => hsub c' (by simp [hc'])) htail hcc
            have hheadun : removeContent c input pos = (false, c) := by
              apply removeContent_not_mem
              intro hmem''
              have := List.one_le_count_iff.mpr hmem''
              omega
            constructor
            · simp only [List.map_cons, List.any_cons, hfst, Bool.or_true]
            · simp only [List.map_cons, realCountList, hheadun]
              omega
      obtain ⟨hrem, hdec⟩ := listLemma ch (fun c hc => hc) hmem hcount
      by_cases hco : (ch.all fun c => c.isLeaf) = true ∧ d.subTreeSize - 1 < coarsenLimit
      · rw [removeContent_internal_coarsen d ch input pos hresp hleaf hrem hco.1 hco.2]
        refine ⟨rfl, ?_⟩
        simp only [realCountList_eq, List.map_map, Function.comp_def] at hdec
        simp only [realCount, data_mk, if_true, List.length_flatten, List.map_map,
          Function.comp_def, realCountList_eq, hleaf, Bool.false_eq_true, if_false]
        have heq : (List.map (fun c => (((removeContent c input pos).2)).content.length) ch).sum
            = (List.map (fun c => ((removeContent c input pos).2).realCount) ch).sum := by
          congr 1
          apply List.map_congr_left
          intro c hc
          have hcleaf : c.isLeaf = true := by
            rw [List.all_eq_true] at hco
            exact hco.1 c hc
          have hcleaf' := removeContent_isLeaf_of_leaf c input pos hcleaf
          rw [realCount_eq, if_pos hcleaf']
        rw [heq]
        exact hdec
      · rw [removeContent_internal_noCoarsen d ch input pos hresp hleaf hrem hco]
        refine ⟨rfl, ?_⟩
        simp only [realCount, data_mk, hleaf, Bool.false_eq_true, if_false]
        exact hdec

/-- `responsible` only depends on the region fields. -/
theorem responsible_of_region_eq (t t' : QuadNode) (h1 : t'.minX = t.minX)
    (h2 : t'.minY = t.minY) (h3 : t'.maxX = t.maxX) (h4 : t'.maxY = t.maxY) (q : Point2D) :
    t'.responsible q ↔ t.responsible q := by
  unfold responsible
  rw [h1, h2, h3, h4]

theorem Inv_mkQuadNode (lower upper : Point2D) (cap : ℕ) (fl : Bool) :
    Inv (mkQuadNode lower upper cap fl) := by
  rw [mkQuadNode, Inv_mk]
  refine ⟨rfl, ?_, by simp⟩
  intro p hp
  simp [getCoordinates] at hp

theorem split_region (t : QuadNode) :
    (t.split).minX = t.minX ∧ (t.split).minY = t.minY ∧
    (t.split).maxX = t.maxX ∧ (t.split).maxY = t.maxY ∧
    (t.split).capacity = t.capacity ∧ (t.split).isLeaf = false := by
  obtain ⟨d, ch⟩ := t
  exact ⟨rfl, rfl, rfl, rfl, rfl, rfl⟩

theorem getCoordinates_split (t : QuadNode) : (t.split).getCoordinates = [] := by
  obtain ⟨d, ch⟩ := t
  simp [split, mkQuadNode, getCoordinates, getCoordinatesList]

theorem Inv_of_parts (t : QuadNode) (hpair : t.content.length = t.positions.length)
    (hco : ∀ p ∈ t.getCoordinates, t.responsible p)
    (hch : ∀ c ∈ t.children, Inv c) : Inv t := by
  obtain ⟨d, ch⟩ := t
  exact (Inv_mk d ch).mpr ⟨hpair, hco, hch⟩

theorem split_buffers (t : QuadNode) :
    (t.split).content = t.content ∧ (t.split).positions = t.positions := by
  obtain ⟨d, ch⟩ := t
  exact ⟨rfl, rfl⟩

/-- Every child created by `split` is a freshly constructed empty leaf. -/
theorem split_children_mem (t : QuadNode) :
    ∀ c ∈ (t.split).children, ∃ l u, c = mkQuadNode l u t.capacity t.splitTheoretical := by
  obtain ⟨d, ch⟩ := t
  intro c hc
  simp only [split, children_mk, List.mem_cons, List.not_mem_nil, or_false] at hc
  rcases hc with rfl | rfl | rfl | rfl
  · exact ⟨_, _, rfl⟩
  · exact ⟨_, _, rfl⟩
  · exact ⟨_, _, rfl⟩
  · exact ⟨_, _, rfl⟩

/-- Splitting preserves the structural invariant (the stale buffers stay
paired, the four fresh children are empty leaves). -/
theorem Inv_split (t : QuadNode) (h : Inv t) : Inv t.split := by
  refine Inv_of_parts _ ?_ ?_ ?_
  · rw [(split_buffers t).1, (split_buffers t).2]
    exact Inv_pairing t h
  · rw [getCoordinates_split]
    simp
  · intro c hc
    obtain ⟨l, u, rfl⟩ := split_children_mem t c hc
    exact Inv_mkQuadNode _ _ _ _

/-- For an internal node the stored coordinates do not depend on the node's
own buffers. -/
theorem getCoordinates_internal (d : NodeData) (ch : List QuadNode)
    (h : d.isLeaf = false) : (QuadNode.mk d ch).getCoordinates = getCoordinatesList ch := by
  simp [getCoordinates, h]

/-- Joint preservation statement for `addContent`, its re-insertion loop and
its child loop: on success, the invariant is preserved, all stored positions
are old ones or the inserted one, the region is unchanged, and an internal
node stays internal. -/
theorem addContent_Inv_aux : ∀ fuel : ℕ,
    (∀ (t : QuadNode) (input : ℕ) (pos : Point2D) (t' : QuadNode), Inv t →
       t.responsible pos → addContent fuel t input pos = some t' →
       Inv t' ∧ (∀ q ∈ t'.getCoordinates, q ∈ t.getCoordinates ∨ q = pos) ∧
       t'.minX = t.minX ∧ t'.minY = t.minY ∧ t'.maxX = t.maxX ∧ t'.maxY = t.maxY ∧
       (t.isLeaf = false → t'.isLeaf = false)) ∧
    (∀ (t : QuadNode) (cps : List (ℕ × Point2D)) (t' : QuadNode), Inv t →
       (∀ cp ∈ cps, t.responsible cp.2) → reinsertAll fuel t cps = some t' →
       Inv t' ∧ (∀ q ∈ t'.getCoordinates, q ∈ t.getCoordinates ∨ ∃ cp ∈ cps, q = cp.2) ∧
       t'.minX = t.minX ∧ t'.minY = t.minY ∧ t'.maxX = t.maxX ∧ t'.maxY = t.maxY ∧
       (t.isLeaf = false → t'.isLeaf = false)) ∧
    (∀ (cs : List QuadNode) (input : ℕ) (pos : Point2D) (cs' : List QuadNode),
       (∀ c ∈ cs, Inv c) →
       addToFirstResponsibleChild fuel cs input pos = some cs' →
       (∀ c' ∈ cs', Inv c') ∧
       (∀ q ∈ getCoordinatesList cs', q ∈ getCoordinatesList cs ∨ q = pos)) := by
  intro fuel
  induction fuel with
  | zero =>
    refine ⟨?_, ?_, ?_⟩
    · intro t input pos t' _ _ h; rw [addContent] at h; exact absurd h (by simp)
    · intro t cps t' _ _ h; rw [reinsertAll] at h; exact absurd h (by simp)
    · intro cs input pos cs' _ h
      rw [addToFirstResponsibleChild] at h; exact absurd h (by simp)
  | succ fuel IH =>
    obtain ⟨IHadd, IHreins, IHchild⟩ := IH
    have Hchild : ∀ (cs : List QuadNode) (input : ℕ) (pos : Point2D) (cs' : List QuadNode),
        (∀ c ∈ cs, Inv c) →
        addToFirstResponsibleChild (fuel + 1) cs input pos = some cs' →
        (∀ c' ∈ cs', Inv c') ∧
        (∀ q ∈ getCoordinatesList cs', q ∈ getCoordinatesList cs ∨ q = pos) := by
      intro cs
      cases cs with
      | nil =>
        intro input pos cs' _ hsome
        rw [addToFirstResponsibleChild] at hsome
        simp only [Option.some.injEq] at hsome
        subst hsome
        refine ⟨fun c hc => absurd hc (List.not_mem_nil c), fun q hq => ?_⟩
        simp only [getCoordinatesList] at hq
        exact absurd hq (List.not_mem_nil q)
      | cons c cs =>
        intro input pos cs' hInvs hsome
        rw [addToFirstResponsibleChild] at hsome
        by_cases hresp : c.responsible pos
        · rw [if_pos hresp] at hsome
          cases hadd : addContent fuel c input pos with
          | none => rw [hadd] at hsome; exact absurd hsome (by simp)
          | some c' =>
            rw [hadd] at hsome
            simp only [Option.map_some', Option.some.injEq] at hsome
            subst hsome
            obtain ⟨hcInv, hcCoords, -, -, -, -, -⟩ :=
              IHadd c input pos c' (hInvs c (by simp)) hresp hadd
            refine ⟨?_, ?_⟩
            · intro x hx
              rcases List.mem_cons.mp hx with rfl | hmem
              · exact hcInv
              · exact hInvs x (by simp [hmem])
            · intro q hq
              simp only [getCoordinatesList] at hq ⊢
              rcases List.mem_append.mp hq with hmem | hmem
              · rcases hcCoords q hmem with hold | rfl
                · exact Or.inl (List.mem_append.mpr (Or.inl hold))
                · exact Or.inr rfl
              · exact Or.inl (List.mem_append.mpr (Or.inr hmem))
        · rw [if_neg hresp] at hsome
          cases hrec : addToFirstResponsibleChild fuel cs input pos with
          | none => rw [hrec] at hsome; exact absurd hsome (by simp)
          | some cs'' =>
            rw [hrec] at hsome
            simp only [Option.map_some', Option.some.injEq] at hsome
            subst hsome
            obtain ⟨hInv'', hCoords''⟩ := IHchild cs input pos cs''
              (fun x hx => hInvs x (by simp [hx])) hrec
            refine ⟨?_, ?_⟩
            · intro x hx
              rcases List.mem_cons.mp hx with rfl | hmem
              · exact hInvs x (by simp)
              · exact hInv'' x hmem
            · intro q hq
              simp only [getCoordinatesList] at hq ⊢
              rcases List.mem_append.mp hq with hmem | hmem
              · exact Or.inl (List.mem_append.mpr (Or.inl hmem))
              · rcases hCoords'' q hmem with hold | rfl
                · exact Or.inl (List.mem_append.mpr (Or.inr hold))
                · exact Or.inr rfl
    have Hadd : ∀ (t : QuadNode) (input : ℕ) (pos : Point2D) (t' : QuadNode), Inv t →
        t.responsible pos → addContent (fuel + 1) t input pos = some t' →
        Inv t' ∧ (∀ q ∈ t'.getCoordinates, q ∈ t.getCoordinates ∨ q = pos) ∧
        t'.minX = t.minX ∧ t'.minY = t.minY ∧ t'.maxX = t.maxX ∧ t'.maxY = t.maxY ∧
        (t.isLeaf = false → t'.isLeaf = false) := by
      intro t input pos t' hInv hresp hsome
      obtain ⟨d, ch⟩ := t
      rw [addContent] at hsome
      by_cases hleaf : d.isLeaf = true
      · rw [if_pos (show (QuadNode.mk d ch).isLeaf = true from hleaf)] at hsome
        by_cases hroom : d.content.length + 1 < d.capacity
        · rw [if_pos (show (QuadNode.mk d ch).content.length + 1 <
            (QuadNode.mk d ch).capacity from hroom)] at hsome
          simp only [Option.some.injEq] at hsome
          subst hsome
          obtain ⟨hpair, hcoords, hchildren⟩ := (Inv_mk d ch).mp hInv
          refine ⟨?_, ?_, rfl, rfl, rfl, rfl,
            fun hF => absurd (show d.isLeaf = false from hF) (by simp [hleaf])⟩
          · rw [Inv_mk]
            refine ⟨by simp [hpair], ?_, hchildren⟩
            intro p hp
            simp only [getCoordinates, data_mk, hleaf, if_true] at hp
            rcases List.mem_append.mp hp with hmem | hmem
            · exact hcoords p (by
                simp only [getCoordinates, data_mk, hleaf, if_true]; exact hmem)
            · simp only [List.mem_singleton] at hmem
              subst hmem
              exact hresp
          · intro q hq
            simp only [getCoordinates, data_mk, hleaf, if_true] at hq
            rcases List.mem_append.mp hq with hmem | hmem
            · exact Or.inl (by simp only [getCoordinates, data_mk, hleaf, if_true]; exact hmem)
            · simp only [List.mem_singleton] at hmem
              exact Or.inr hmem
        · rw [if_neg (show ¬ ((QuadNode.mk d ch).content.length + 1 <
            (QuadNode.mk d ch).capacity) from hroom)] at hsome
          cases hreins : reinsertAll fuel (QuadNode.split (.mk d ch))
              ((QuadNode.mk d ch).content.zip (QuadNode.mk d ch).positions) with
          | none => rw [hreins] at hsome; exact absurd hsome (by simp)
          | some tr =>
            rw [hreins] at hsome
            obtain ⟨hpair, hcoords, hchildren⟩ := (Inv_mk d ch).mp hInv
            have hsplitInv : Inv (QuadNode.split (.mk d ch)) := Inv_split _ hInv
            have hcps : ∀ cp ∈ (QuadNode.mk d ch).content.zip (QuadNode.mk d ch).positions,
                (QuadNode.split (.mk d ch)).responsible cp.2 := by
              intro cp hcp
              obtain ⟨hr1, hr2, hr3, hr4, -, -⟩ := split_region (QuadNode.mk d ch)
              rw [responsible_of_region_eq _ _ hr1 hr2 hr3 hr4]
              apply hcoords
              simp only [getCoordinates, data_mk, hleaf, if_true]
              exact (List.of_mem_zip hcp).2
            obtain ⟨hTrInv, hTrCoords, hTr1, hTr2, hTr3, hTr4, hTrLeaf⟩ :=
              IHreins _ _ _ hsplitInv hcps hreins
            have hTrInternal : tr.isLeaf = false := hTrLeaf (split_region _).2.2.2.2.2
            obtain ⟨dtr, chtr⟩ := tr
            have hsome' : addContent fuel (QuadNode.mk { dtr with
                subTreeSize := d.content.length,
                content := [], positions := [] } chtr) input pos = some t' := hsome
            have hD2 : ({ dtr with
                subTreeSize := d.content.length,
                content := [], positions := [] } : NodeData).isLeaf = false := hTrInternal
            have htr2Leaf : (QuadNode.mk { dtr with
                subTreeSize := d.content.length,
                content := [], positions := [] } chtr).isLeaf = false := hTrInternal
            have htr2Coords : (QuadNode.mk { dtr with
                subTreeSize := d.content.length,
                content := [], positions := [] } chtr).getCoordinates
                = (QuadNode.mk dtr chtr).getCoordinates := by
              rw [getCoordinates_internal _ chtr hD2,
                getCoordinates_internal dtr chtr
                  (show dtr.isLeaf = false from hTrInternal)]
            have htr2Inv : Inv (QuadNode.mk { dtr with
                subTreeSize := d.content.length,
                content := [], positions := [] } chtr) := by
              rw [Inv_mk]
              refine ⟨rfl, ?_, ((Inv_mk dtr chtr).mp hTrInv).2.2⟩
              intro p hp
              rw [htr2Coords] at hp
              have hresp' := ((Inv_mk dtr chtr).mp hTrInv).2.1 p hp
              exact (responsible_of_region_eq (QuadNode.mk dtr chtr) _
                rfl rfl rfl rfl p).mpr hresp'
            have htr2Resp : (QuadNode.mk { dtr with
                subTreeSize := d.content.length,
                content := [], positions := [] } chtr).responsible pos :=
              (responsible_of_region_eq (QuadNode.mk d ch) _ hTr1 hTr2 hTr3 hTr4 pos).mpr
                hresp
            obtain ⟨hInv', hcoords', h1', h2', h3', h4', hleaf'⟩ :=
              IHadd _ input pos t' htr2Inv htr2Resp hsome'
            refine ⟨hInv', ?_, by rw [h1']; exact hTr1, by rw [h2']; exact hTr2,
              by rw [h3']; exact hTr3, by rw [h4']; exact hTr4,
              fun _ => hleaf' htr2Leaf⟩
            intro q hq
            rcases hcoords' q hq with hold | rfl
            · rw [htr2Coords] at hold
              rcases hTrCoords q hold with hold' | ⟨cp, hcp, rfl⟩
              · rw [getCoordinates_split] at hold'
                simp at hold'
              · left
                simp only [getCoordinates, data_mk, hleaf, if_true]
                exact (List.of_mem_zip hcp).2
            · right; rfl
      · rw [if_neg (show ¬ ((QuadNode.mk d ch).isLeaf = true) from hleaf)] at hsome
        replace hleaf : d.isLeaf = false := by simpa using hleaf
        cases hchild : addToFirstResponsibleChild fuel
            ((QuadNode.mk d ch).children) input pos with
        | none => rw [hchild] at hsome; exact absurd hsome (by simp)
        | some cs' =>
            rw [hchild] at hsome
            simp only [Option.some.injEq, data_mk] at hsome
            subst hsome
            obtain ⟨hpair, hcoords, hchildren⟩ := (Inv_mk d ch).mp hInv
            obtain ⟨hcs'Inv, hcs'Coords⟩ := IHchild ch input pos cs' hchildren hchild
            have hD3 : ({ d with
                subTreeSize := d.subTreeSize + 1 } : NodeData).isLeaf = false := hleaf
            refine ⟨?_, ?_, rfl, rfl, rfl, rfl, fun _ => hleaf⟩
            · rw [Inv_mk]
              refine ⟨hpair, ?_, hcs'Inv⟩
              intro p hp
              rw [getCoordinates_internal _ _ hD3] at hp
              rcases hcs'Coords p hp with hold | rfl
              · exact hcoords p (by rw [getCoordinates_internal _ _ hleaf]; exact hold)
              · exact hresp
            · intro q hq
              rw [getCoordinates_internal _ _ hD3] at hq
              rcases hcs'Coords q hq with hold | rfl
              · exact Or.inl (by rw [getCoordinates_internal _ _ hleaf]; exact hold)
              · exact Or.inr rfl
    have Hreins : ∀ (t : QuadNode) (cps : List (ℕ × Point2D)) (t' : QuadNode), Inv t →
        (∀ cp ∈ cps, t.responsible cp.2) → reinsertAll (fuel + 1) t cps = some t' →
        Inv t' ∧ (∀ q ∈ t'.getCoordinates, q ∈ t.getCoordinates ∨ ∃ cp ∈ cps, q = cp.2) ∧
        t'.minX = t.minX ∧ t'.minY = t.minY ∧ t'.maxX = t.maxX ∧ t'.maxY = t.maxY ∧
        (t.isLeaf = false → t'.isLeaf = false) := by
      intro t cps
      cases cps with
      | nil =>
        intro t' hInv _ hsome
        rw [reinsertAll] at hsome
        simp only [Option.some.injEq] at hsome
        subst hsome
        exact ⟨hInv, fun q hq => Or.inl hq, rfl, rfl, rfl, rfl, fun h => h⟩
      | cons cp rest =>
        intro t' hInv hresps hsome
        rw [reinsertAll] at hsome
        cases hadd : addContent fuel t cp.1 cp.2 with
        | none => rw [hadd] at hsome; exact absurd hsome (by simp)
        | some t1 =>
          rw [hadd] at hsome
          have hsome2 : reinsertAll fuel t1 rest = some t' := hsome
          obtain ⟨h1Inv, h1Coords, h11, h12, h13, h14, h1Leaf⟩ :=
            IHadd t cp.1 cp.2 t1 hInv (hresps cp (by simp)) hadd
          obtain ⟨h2Inv, h2Coords, h21, h22, h23, h24, h2Leaf⟩ :=
            IHreins t1 rest t' h1Inv (fun cp' hcp' => by
              rw [responsible_of_region_eq t t1 h11 h12 h13 h14]
              exact hresps cp' (by simp [hcp'])) hsome2
          refine ⟨h2Inv, ?_, by rw [h21]; exact h11, by rw [h22]; exact h12,
            by rw [h23]; exact h13, by rw [h24]; exact h14,
            fun hF => h2Leaf (h1Leaf hF)⟩
          intro q hq
          rcases h2Coords q hq with hold | ⟨cp', hcp', rfl⟩
          · rcases h1Coords q hold with holder | rfl
            · exact Or.inl holder
            · exact Or.inr ⟨cp, by simp, rfl⟩
          · exact Or.inr ⟨cp', by simp [hcp'], rfl⟩
    exact ⟨Hadd, Hreins, Hchild⟩

/-- Successful insertion at a responsible position preserves the invariant. -/
theorem addContent_Inv (fuel : ℕ) (t : QuadNode) (input : ℕ) (pos : Point2D)
    (t' : QuadNode) (hInv : Inv t) (hresp : t.responsible pos)
    (hsome : addContent fuel t input pos = some t') : Inv t' :=
  ((addContent_Inv_aux fuel).1 t input pos t' hInv hresp hsome).1

/-- A build step preserves the invariant. -/
theorem buildStep_Inv (fuel : ℕ) (t : QuadNode) (op : TreeOp) (t' : QuadNode)
    (hInv : Inv t) (hsome : buildStep fuel t op = some t') : Inv t' := by
  cases op with
  | insert input pos =>
    rw [buildStep] at hsome
    by_cases hresp : t.responsible pos
    · rw [if_pos hresp] at hsome
      exact addContent_Inv fuel t input pos t' hInv hresp hsome
    · rw [if_neg hresp] at hsome
      exact absurd hsome (by simp)
  | remove input pos =>
    rw [buildStep] at hsome
    simp only [Option.some.injEq] at hsome
    subst hsome
    exact removeContent_Inv t hInv input pos

/-- Every tree produced by `build` satisfies the structural invariant. -/
theorem build_Inv (lower upper : Point2D) (cap : ℕ) (fl : Bool) (fuel : ℕ)
    (ops : List TreeOp) (t : QuadNode)
    (hsome : build lower upper cap fl fuel ops = some t) : Inv t := by
  rw [build] at hsome
  have haux : ∀ (l : List TreeOp) (t0 : QuadNode), Inv t0 →
      l.foldlM (fun t op => buildStep fuel t op) t0 = some t → Inv t := by
    intro l
    induction l with
    | nil =>
      intro t0 h0 hfold
      simp only [List.foldlM_nil, Option.pure_def, Option.some.injEq] at hfold
      subst hfold
      exact h0
    | cons op ops ihops =>
      intro t0 h0 hfold
      rw [List.foldlM_cons] at hfold
      cases hstep : buildStep fuel t0 op with
      | none => rw [hstep] at hfold; exact absurd hfold (by simp)
      | some t1 =>
        rw [hstep] at hfold
        exact ihops t1 (buildStep_Inv fuel t0 op t1 h0 hstep) hfold
  exact haux ops _ (Inv_mkQuadNode lower upper cap fl) hsome

theorem build_exampleOps :
    build ⟨0, 0⟩ ⟨1, 1⟩ 4 true 20 exampleOps = some exampleLeaf := by
  norm_num [build, buildStep, exampleOps, exampleLeaf, mkQuadNode,
    addContent, responsible, Point2D.getX, Point2D.getY, List.foldlM_cons, List.foldlM_nil,
    Option.bind, minX, minY, maxX, maxY, capacity, content, positions, isLeaf, subTreeSize]

/-- **C9** — Region membership is half-open: `responsible(pos)` holds exactly
when `minX ≤ pos.x < maxX` and `minY ≤ pos.y < maxY`, so a point lying
exactly on a node's upper x- or y-boundary is outside that node's
responsibility; inserting a point the root is not responsible for violates
the insertion precondition (the build step fails), and every position stored
in a built tree satisfies `responsible`, so such a boundary point can never
be stored (queries only ever report stored elements). -/
theorem claim_C9_responsible_half_open :
    (∀ (t : QuadNode) (pos : Point2D), t.responsible pos ↔
      (t.minX ≤ pos.x ∧ pos.x < t.maxX ∧ t.minY ≤ pos.y ∧ pos.y < t.maxY)) ∧
    (∀ (t : QuadNode) (pos : Point2D), pos.x = t.maxX ∨ pos.y = t.maxY →
      ¬ t.responsible pos) ∧
    (∀ (fuel : ℕ) (t : QuadNode) (input : ℕ) (pos : Point2D), ¬ t.responsible pos →
      buildStep fuel t (TreeOp.insert input pos) = none) ∧
    (∀ (lower upper : Point2D) (cap : ℕ) (fl : Bool) (fuel : ℕ) (ops : List TreeOp)
      (t : QuadNode), build lower upper cap fl fuel ops = some t →
      ∀ pr ∈ t.storedPairs, t.responsible pr.2) := by
  refine ⟨?_, ?_, ?_, ?_⟩
  · intro t pos
    unfold responsible Point2D.getX Point2D.getY
    constructor
    · rintro ⟨h1, h2, h3, h4⟩
      exact ⟨h1, h3, h2, h4⟩
    · rintro ⟨h1, h2, h3, h4⟩
      exact ⟨h1, h3, h2, h4⟩
  · rintro t pos (hx | hy) ⟨h1, h2, h3, h4⟩
    · rw [Point2D.getX, hx] at h3
      exact lt_irrefl _ h3
    · rw [Point2D.getY, hy] at h4
      exact lt_irrefl _ h4
  · intro fuel t input pos h
    rw [buildStep, if_neg h]
  · intro lower upper cap fl fuel ops t hbuild
    exact responsible_of_mem_storedPairs t (build_Inv lower upper cap fl fuel ops t hbuild)

/-- Witness for C9 at concrete inputs: the example build succeeds, its
stored positions are all inside the region, the boundary point `(1, 1/2)` is
not `responsible`, and inserting it fails the precondition. -/
theorem claim_C9_witness :
    ((1 : ℚ) = exampleLeaf.maxX ∨ ((1 : ℚ) / 2) = exampleLeaf.maxY) ∧
    ¬ exampleLeaf.responsible ⟨1, 1/2⟩ ∧
    (∀ pr ∈ exampleLeaf.storedPairs, exampleLeaf.responsible pr.2) := by
  have h1 : (1 : ℚ) = exampleLeaf.maxX ∨ ((1 : ℚ) / 2) = exampleLeaf.maxY :=
    Or.inl (by norm_num [exampleLeaf, maxX])
  refine ⟨h1, ?_, ?_⟩
  · exact claim_C9_responsible_half_open.2.1 exampleLeaf ⟨1, 1/2⟩ h1
  · exact claim_C9_responsible_half_open.2.2.2 ⟨0, 0⟩ ⟨1, 1⟩ 4 true 20 exampleOps
      exampleLeaf build_exampleOps

/-- **C5** — During `removeContent` on an internal node, coarsening (the node
turning into a leaf) happens only when all four children are leaves, the
removal succeeded, and the decremented cached size is below the coarsening
limit 4; the coarsened node's buffer is exactly the concatenation of the
four children's post-removal buffers, and the children are discarded. -/
theorem claim_C5_coarsening (d : NodeData) (ch : List QuadNode) (input : ℕ)
    (pos : Point2D) (hleaf : d.isLeaf = false) (hfour : ch.length = 4)
    (hcoarse : ((removeContent (.mk d ch) input pos).2).isLeaf = true) :
    (removeContent (.mk d ch) input pos).1 = true ∧
    (∀ c ∈ ch, c.isLeaf = true) ∧
    d.subTreeSize - 1 < coarsenLimit ∧
    removeContent (.mk d ch) input pos =
      (true, .mk { d with
          subTreeSize := d.subTreeSize - 1,
          content := ((((ch.map fun c => removeContent c input pos).map
            fun r => r.2).map fun c => c.content)).flatten,
          positions := ((((ch.map fun c => removeContent c input pos).map
            fun r => r.2).map fun c => c.positions)).flatten,
          isLeaf := true } []) := by
  by_cases hresp : (QuadNode.mk d ch).responsible pos
  · by_cases hrem : ((ch.map fun c => removeContent c input pos).any fun r => r.1) = true
    · by_cases hco : (ch.all fun c => c.isLeaf) = true ∧ d.subTreeSize - 1 < coarsenLimit
      · refine ⟨?_, fun c hc => (List.all_eq_true.mp hco.1) c hc, hco.2, ?_⟩
        · rw [removeContent_internal_coarsen d ch input pos hresp hleaf hrem hco.1 hco.2]
        · rw [removeContent_internal_coarsen d ch input pos hresp hleaf hrem hco.1 hco.2]
      · exfalso
        rw [removeContent_internal_noCoarsen d ch input pos hresp hleaf hrem hco] at hcoarse
        simp only [isLeaf, data_mk] at hcoarse
        rw [hleaf] at hcoarse
        exact Bool.false_ne_true hcoarse
    · exfalso
      replace hrem : ((ch.map fun c => removeContent c input pos).any fun r => r.1)
          = false := by simpa using hrem
      rw [removeContent_internal_notRemoved d ch input pos hresp hleaf hrem] at hcoarse
      simp only [isLeaf, data_mk] at hcoarse
      rw [hleaf] at hcoarse
      exact Bool.false_ne_true hcoarse
  · exfalso
    rw [removeContent_not_responsible _ _ _ hresp] at hcoarse
    simp only [isLeaf, data_mk] at hcoarse
    rw [hleaf] at hcoarse
    exact Bool.false_ne_true hcoarse

/-- Witness for C5: removing element `7` from the concrete internal node
actually coarsens it, and the claim theorem applies. -/
theorem claim_C5_witness :
    coarsenData.isLeaf = false ∧ coarsenChildren.length = 4 ∧
    ((removeContent (.mk coarsenData coarsenChildren) 7 ⟨1, 1⟩).2).isLeaf = true ∧
    (removeContent (.mk coarsenData coarsenChildren) 7 ⟨1, 1⟩).1 = true ∧
    (∀ c ∈ coarsenChildren, c.isLeaf = true) ∧
    coarsenData.subTreeSize - 1 < coarsenLimit := by
  have hcoarse : ((removeContent (.mk coarsenData coarsenChildren) 7 ⟨1, 1⟩).2).isLeaf
      = true := by
    norm_num [removeContent, removeContentList, coarsenData, coarsenChildren, responsible,
      Point2D.getX, Point2D.getY, coarsenLimit, minX, minY, maxX, maxY, isLeaf, subTreeSize,
      content, positions, List.findIdx?]
  have h := claim_C5_coarsening coarsenData coarsenChildren 7 ⟨1, 1⟩ rfl rfl hcoarse
  exact ⟨rfl, rfl, hcoarse, h.1, h.2.1, h.2.2.1⟩

/-- **C6** — `removeContent(id, pos)` with `pos` outside the node's region,
or with an identifier not stored in the tree, returns `false` and leaves the
entire tree unchanged (same structure, same buffers, same cached sizes);
removing a stored identifier at its position (when that identifier is stored
exactly once, as the tree's callers guarantee) returns `true` and decreases
the total element count by exactly one. -/
theorem claim_C6_removal_spec (t : QuadNode) (input : ℕ) (pos : Point2D) (hInv : Inv t) :
    (¬ t.responsible pos → t.removeContent input pos = (false, t)) ∧
    (input ∉ t.getElements → t.removeContent input pos = (false, t)) ∧
    ((input, pos) ∈ t.storedPairs → t.getElements.count input = 1 →
      (t.removeContent input pos).1 = true ∧
      ((t.removeContent input pos).2).storedPairs.length + 1 = t.storedPairs.length) := by
  refine ⟨fun h => removeContent_not_responsible t input pos h,
    fun h => removeContent_not_mem t input pos h, fun hmem hcount => ?_⟩
  obtain ⟨hfst, hdec⟩ := removeContent_found t hInv input pos hmem hcount
  refine ⟨hfst, ?_⟩
  rw [storedPairs_length _ (removeContent_Inv t hInv input pos),
    storedPairs_length _ hInv]
  exact hdec

/-- Witness for C6 on the concrete one-element leaf. -/
theorem claim_C6_witness :
    Inv exampleLeaf ∧
    ((3, (⟨1/2, 1/2⟩ : Point2D)) ∈ exampleLeaf.storedPairs →
      exampleLeaf.getElements.count 3 = 1 →
      (exampleLeaf.removeContent 3 ⟨1/2, 1/2⟩).1 = true ∧
      ((exampleLeaf.removeContent 3 ⟨1/2, 1/2⟩).2).storedPairs.length + 1 =
        exampleLeaf.storedPairs.length) := by
  have hInv : Inv exampleLeaf := by
    rw [exampleLeaf, Inv_mk]
    refine ⟨rfl, ?_, by simp⟩
    intro p hp
    simp only [getCoordinates, data_mk, if_true] at hp
    simp only [List.mem_singleton] at hp
    subst hp
    norm_num [responsible, Point2D.getX, Point2D.getY, minX, minY, maxX, maxY]
  exact ⟨hInv, (claim_C6_removal_spec exampleLeaf 3 ⟨1/2, 1/2⟩ hInv).2.2⟩

/-- `indexSubtree` returns `nextID + nodeCount` and stamps the root itself
with the last identifier handed out, `nextID + nodeCount − 1`. -/
theorem indexSubtree_counts (t : QuadNode) : ∀ nextID : ℕ,
    (indexSubtree t nextID).2 = nextID + nodeCount t ∧
    ((indexSubtree t nextID).1).ID = nextID + nodeCount t - 1 := by
  induction t using inductionOn with
  | ih d ch ih =>
    have hlist : ∀ n : ℕ, (indexSubtreeList ch n).2 = n + nodeCountList ch := by
      induction ch with
      | nil => intro n; simp [indexSubtreeList, nodeCountList]
      | cons c cs ihcs =>
        intro n
        simp only [indexSubtreeList, nodeCountList]
        rw [ihcs (fun c hc => ih c (List.mem_cons_of_mem _ hc)),
          (ih c (List.mem_cons_self c cs) n).1]
        omega
    intro n
    simp only [indexSubtree, nodeCount, ID, data_mk]
    rw [hlist n]
    omega

/-- **C8** (counterexample) — `indexSubtree` stamps internal nodes too: on a
concrete internal node with four leaf children and prior identifier `0`,
calling `indexSubtree` with `nextID = 1` sets the internal root's own
identifier to `5`, contradicting "no internal node receives an identifier
from this operation". -/
theorem claim_C8_counterexample :
    (QuadNode.mk coarsenData coarsenChildren).isLeaf = false ∧
    (QuadNode.mk coarsenData coarsenChildren).ID = 0 ∧
    ((indexSubtree (.mk coarsenData coarsenChildren) 1).1).ID = 5 := by
  refine ⟨rfl, rfl, ?_⟩
  norm_num [indexSubtree, indexSubtreeList, coarsenData, coarsenChildren, ID]

/-- **C8** (amended) — `indexSubtree(nextID)` assigns sequential identifiers
post-order to *every* node of the subtree, leaves and internal nodes alike:
it returns `nextID` plus the total node count, and the subtree's root (even
when internal) receives the last identifier handed out. -/
theorem claim_C8_indexSubtree_post_order (t : QuadNode) (nextID : ℕ) :
    (indexSubtree t nextID).2 = nextID + nodeCount t ∧
    ((indexSubtree t nextID).1).ID = nextID + nodeCount t - 1 :=
  indexSubtree_counts t nextID

/-- **C2** (counterexample) — at `probUB = 1/2000` and subtree size `8000`
the code recurses into the children although the specified condition
(`probUB × subtreeSize < 4` or `probUB < 0.001`) demands direct selection:
in `probUB < 1/1000` the division is C++ integer division, so the right-hand
side is `0`, not `0.001`, and the branch is never taken for a nonnegative
bound. -/
theorem claim_C2_counterexample :
    ¬ directSelectionCond ((1 / 2000 : ℝ)) 8000 ∧
    ((1 / 2000 : ℝ) * ((8000 : ℕ) : ℝ) < 4 ∨ (1 / 2000 : ℝ) < 0.001) := by
  constructor
  · intro h
    rcases h with h | h
    · have h4 : ((1 / 2000 : ℝ)) * ((8000 : ℕ) : ℝ) = 4 := by norm_num
      rw [h4] at h
      have : (⌊(4 : ℝ)⌋₊ : ℕ) = 4 := by
        norm_num
      omega
    · norm_num at h
  · right
    norm_num

/-- **C2** (amended) — for a nonnegative probability bound, the internal-node
branch condition of `getElementsProbabilistically` is equivalent to
`probUB × subtreeSize < 4` alone: the truncation of `expectedNeighbours` to
an integer does not change the comparison with `4`, and the
`probUB < 1/1000` disjunct is dead code because integer division makes its
right-hand side `0`. -/
theorem claim_C2_direct_selection_iff (probUB : ℝ) (sz : ℕ) (h : 0 ≤ probUB) :
    directSelectionCond probUB sz ↔ probUB * (sz : ℝ) < 4 := by
  unfold directSelectionCond
  have hnn : 0 ≤ probUB * (sz : ℝ) := mul_nonneg h (Nat.cast_nonneg sz)
  constructor
  · intro hc
    rcases hc with hc | hc
    · have := (Nat.floor_lt hnn).mp hc
      simpa using this
    · exfalso
      have : probUB < 0 := by simpa using hc
      linarith
  · intro hc
    left
    exact (Nat.floor_lt hnn).mpr (by simpa using hc)

/-- Witness for the amended C2 at `probUB = 1/2`, subtree size `4`. -/
theorem claim_C2_witness :
    0 ≤ (1 / 2 : ℝ) ∧
    (directSelectionCond ((1 / 2 : ℝ)) 4 ↔ (1 / 2 : ℝ) * ((4 : ℕ) : ℝ) < 4) :=
  ⟨by norm_num, claim_C2_direct_selection_iff (1 / 2) 4 (by norm_num)⟩

/-- **C7** — when the clamped upper probability bound is `0`, or the
logarithmic jump denominator `log(1 − probUB)` is `0`, the probabilistic
query returns `0` candidates tested, appends nothing to the result vector,
and consumes no randomness; neither degenerate input is an error. -/
theorem claim_C7_degenerate_early_return (t : QuadNode) (euQuery : Point2D)
    (prob : ℝ → ℝ) (rng : ℕ → ℝ) (rpos : ℕ) (result : List ℕ) (probUB : ℝ)
    (hdef : probUB = (if prob (EuclideanDistances t euQuery).1 > 0.5 then 1
      else prob (EuclideanDistances t euQuery).1))
    (h : probUB = 0 ∨ Real.log (1 - probUB) = 0) :
    getElementsProbabilistically t euQuery prob rng rpos result = (0, result, rpos) := by
  cases t with
  | mk d ch =>
    subst hdef
    rw [getElementsProbabilistically]
    by_cases h0 : (if prob (EuclideanDistances (.mk d ch) euQuery).1 > 0.5 then (1 : ℝ)
        else prob (EuclideanDistances (.mk d ch) euQuery).1) = 0
    · simp [h0]
    · rcases h with h | h
      · exact absurd h h0
      · simp [h0, h]

/-- Witness for C7: a constant-zero acceptance probability on the example
leaf takes the first early return. -/
theorem claim_C7_witness :
    ((0 : ℝ) = if (fun _ : ℝ => (0 : ℝ)) (EuclideanDistances exampleLeaf ⟨0, 0⟩).1 > 0.5
      then 1 else (fun _ : ℝ => (0 : ℝ)) (EuclideanDistances exampleLeaf ⟨0, 0⟩).1) ∧
    getElementsProbabilistically exampleLeaf ⟨0, 0⟩ (fun _ => 0) (fun _ => 1 / 2) 0 []
      = (0, [], 0) :=
  have hdef : (0 : ℝ) = if (fun _ : ℝ => (0 : ℝ)) (EuclideanDistances exampleLeaf ⟨0, 0⟩).1
      > 0.5 then 1 else (fun _ : ℝ => (0 : ℝ)) (EuclideanDistances exampleLeaf ⟨0, 0⟩).1 := by
    norm_num
  ⟨hdef, claim_C7_degenerate_early_return exampleLeaf ⟨0, 0⟩ (fun _ => 0) (fun _ => 1 / 2)
    0 [] 0 hdef (Or.inl rfl)⟩

theorem PairedList_iff (ts : List QuadNode) : PairedList ts ↔ ∀ c ∈ ts, Paired c := by
  induction ts with
  | nil => simp [PairedList]
  | cons c cs ih => simp [PairedList, ih]

theorem Paired_mk (d : NodeData) (ch : List QuadNode) :
    Paired (.mk d ch) ↔ d.content.length = d.positions.length ∧ PairedList ch := Iff.rfl

/-- `Inv` subsumes the pairing invariant at every node. -/
theorem Paired_of_Inv (t : QuadNode) (h : Inv t) : Paired t := by
  induction t using inductionOn with
  | ih d ch ih =>
    obtain ⟨h1, _, h3⟩ := (Inv_mk d ch).mp h
    exact (Paired_mk d ch).mpr ⟨h1, (PairedList_iff ch).mpr fun c hc => ih c hc (h3 c hc)⟩

/-- The permuted identifier buffer and the permuted position buffer of
`sortLeafBuffers` stay aligned: their zip is a permutation of the original
zip. -/
theorem sortLeafBuffers_zip_perm (cs : List ℕ) (ps : List Point2D)
    (hlen : cs.length = ps.length) :
    ((sortLeafBuffers cs ps).1.zip (sortLeafBuffers cs ps).2).Perm (cs.zip ps) := by
  simp only [sortLeafBuffers, List.zip_map']
  refine ((List.mergeSort_perm _ _).map _).trans ?_
  have hrange : (List.range cs.length).map (fun i => (cs.getD i 0, ps.getD i ⟨0, 0⟩))
      = cs.zip ps := by
    apply List.ext_getElem
    · simp [List.length_zip, ← hlen]
    · intro n h1 h2
      simp only [List.getElem_map, List.getElem_range, List.getElem_zip]
      have hn : n < cs.length := by simpa using h1
      rw [List.getD_eq_getElem cs 0 hn, List.getD_eq_getElem ps ⟨0, 0⟩ (hlen ▸ hn)]
  rw [hrange]

/-- The position buffer produced by `sortLeafBuffers` is sorted by
non-decreasing x-coordinate. -/
theorem sortLeafBuffers_sorted_x (cs : List ℕ) (ps : List Point2D) :
    ((sortLeafBuffers cs ps).2.map Point2D.getX).Sorted (fun a b => a ≤ b) := by
  simp only [sortLeafBuffers, List.map_map]
  have hp := @List.sorted_mergeSort ℕ
    (fun i j => decide ((ps.getD i ⟨0, 0⟩).getX ≤ (ps.getD j ⟨0, 0⟩).getX))
    (fun a b c hab hbc => by
      simp only [decide_eq_true_eq] at hab hbc ⊢
      exact le_trans hab hbc)
    (fun a b => by
      simp only [Bool.or_eq_true, decide_eq_true_eq]
      exact le_total _ _)
    (List.range cs.length)
  exact hp.map _ (fun a b hab => by simpa using hab)

theorem sortPointsInLeaves_Paired (t : QuadNode) : Paired t →
    Paired (sortPointsInLeaves t) := by
  induction t using inductionOn with
  | ih d ch ih =>
    intro h
    obtain ⟨h1, h2⟩ := (Paired_mk d ch).mp h
    rw [sortPointsInLeaves]
    by_cases hleaf : d.isLeaf
    · rw [if_pos hleaf]
      refine (Paired_mk _ _).mpr ⟨?_, h2⟩
      simp [sortLeafBuffers]
    · rw [if_neg hleaf]
      refine (Paired_mk _ _).mpr ⟨h1, ?_⟩
      have hlist : ∀ cs, (∀ c ∈ cs, c ∈ ch) → PairedList cs →
          PairedList (sortPointsInLeavesList cs) := by
        intro cs
        induction cs with
        | nil => intro _ _; trivial
        | cons c cs ihcs =>
          intro hsub hp
          exact ⟨ih c (hsub c (by simp)) hp.1,
            ihcs (fun x hx => hsub x (by simp [hx])) hp.2⟩
      exact hlist ch (fun c hc => hc) h2

theorem reindex_Paired (t : QuadNode) : ∀ offset : ℕ, Paired t →
    Paired ((reindex t offset).1) := by
  induction t using inductionOn with
  | ih d ch ih =>
    intro offset h
    obtain ⟨h1, h2⟩ := (Paired_mk d ch).mp h
    rw [reindex]
    by_cases hleaf : d.isLeaf
    · rw [if_pos hleaf]
      exact (Paired_mk _ _).mpr ⟨by simp [h1], h2⟩
    · rw [if_neg hleaf]
      show Paired (.mk d (reindexList ch offset).1)
      refine (Paired_mk _ _).mpr ⟨h1, ?_⟩
      have hlist : ∀ cs, (∀ c ∈ cs, c ∈ ch) → ∀ o : ℕ, PairedList cs →
          PairedList ((reindexList cs o).1) := by
        intro cs
        induction cs with
        | nil => intro _ _ _; trivial
        | cons c cs ihcs =>
          intro hsub o hp
          show PairedList ((reindex c o).1 :: (reindexList cs (reindex c o).2).1)
          exact ⟨ih c (hsub c (by simp)) o hp.1,
            ihcs (fun x hx => hsub x (by simp [hx])) _ hp.2⟩
      exact hlist ch (fun c hc => hc) offset h2

/-- `reindex` rewrites only identifier buffers: erasing all identifier
buffers gives back the original tree, so positions, regions, cached sizes
and structure are untouched. -/
theorem reindex_contentErased (t : QuadNode) : ∀ offset : ℕ,
    contentErased ((reindex t offset).1) = contentErased t := by
  induction t using inductionOn with
  | ih d ch ih =>
    intro offset
    rw [reindex]
    by_cases hleaf : d.isLeaf
    · rw [if_pos hleaf]
      rfl
    · rw [if_neg hleaf]
      show contentErased (.mk d (reindexList ch offset).1) = contentErased (.mk d ch)
      have hlist : ∀ cs, (∀ c ∈ cs, c ∈ ch) → ∀ o : ℕ,
          contentErasedList ((reindexList cs o).1) = contentErasedList cs := by
        intro cs
        induction cs with
        | nil => intro _ _; rfl
        | cons c cs ihcs =>
          intro hsub o
          show contentErased ((reindex c o).1)
              :: contentErasedList ((reindexList cs (reindex c o).2).1)
            = contentErased c :: contentErasedList cs
          rw [ih c (hsub c (by simp)) o, ihcs (fun x hx => hsub x (by simp [hx])) _]
      rw [contentErased, contentErased, hlist ch (fun c hc => hc) offset]

/-- **C10** — every operation preserves the pairing invariant (equal-length
identifier and position buffers at every node, entry `i` of one belonging to
entry `i` of the other): insertion and removal preserve it (as part of the
tree invariant), and so do `sortPointsInLeaves` and `reindex` on any paired
tree; moreover `sortLeafBuffers` (the per-leaf body of `sortPointsInLeaves`)
permutes the zipped buffer, keeping each identifier attached to its own
position, into non-decreasing order of x-coordinate, and `reindex` changes
only identifier buffers, never positions, regions or structure. -/
theorem claim_C10_pairing_preserved (t t' : QuadNode) (fuel offset input : ℕ)
    (pos : Point2D) (cs : List ℕ) (ps : List Point2D) (hlen : cs.length = ps.length) :
    (Inv t → t.responsible pos → addContent fuel t input pos = some t' → Paired t') ∧
    (Inv t → Paired ((t.removeContent input pos).2)) ∧
    (Paired t → Paired (sortPointsInLeaves t)) ∧
    (Paired t → Paired ((reindex t offset).1)) ∧
    contentErased ((reindex t offset).1) = contentErased t ∧
    ((sortLeafBuffers cs ps).1.zip (sortLeafBuffers cs ps).2).Perm (cs.zip ps) ∧
    ((sortLeafBuffers cs ps).2.map Point2D.getX).Sorted (fun a b => a ≤ b) :=
  ⟨fun hInv hresp hsome => Paired_of_Inv t' (addContent_Inv fuel t input pos t' hInv hresp hsome),
   fun hInv => Paired_of_Inv _ (removeContent_Inv t hInv input pos),
   sortPointsInLeaves_Paired t,
   reindex_Paired t offset,
   reindex_contentErased t offset,
   sortLeafBuffers_zip_perm cs ps hlen,
   sortLeafBuffers_sorted_x cs ps⟩

/-- Witness for C10 on a concrete two-element leaf buffer. -/
theorem claim_C10_witness :
    ([1, 2] : List ℕ).length = ([⟨1, 1⟩, ⟨0, 0⟩] : List Point2D).length ∧
    ((sortLeafBuffers [1, 2] [⟨1, 1⟩, ⟨0, 0⟩]).1.zip
      (sortLeafBuffers [1, 2] [⟨1, 1⟩, ⟨0, 0⟩]).2).Perm
      (([1, 2] : List ℕ).zip ([⟨1, 1⟩, ⟨0, 0⟩] : List Point2D)) :=
  ⟨rfl, (claim_C10_pairing_preserved exampleLeaf exampleLeaf 1 0 0 ⟨0, 0⟩
    [1, 2] [⟨1, 1⟩, ⟨0, 0⟩] rfl).2.2.2.2.2.1⟩

theorem SizeInv_mk (d : NodeData) (ch : List QuadNode) :
    SizeInv (.mk d ch) ↔
      4 ≤ d.capacity ∧
      (d.isLeaf = true → d.content.length ≤ d.capacity - 1) ∧
      (d.isLeaf = false → realCountList ch ≤ d.subTreeSize) ∧
      SizeInvList d.capacity ch := Iff.rfl

theorem leafBufferBoundedList_iff (ts : List QuadNode) :
    leafBufferBoundedList ts ↔ ∀ c ∈ ts, leafBufferBounded c := by
  induction ts with
  | nil => simp [leafBufferBoundedList]
  | cons c cs ih => simp [leafBufferBoundedList, ih]

theorem leafBufferBounded_of_SizeInv (t : QuadNode) (h : SizeInv t) :
    leafBufferBounded t := by
  induction t using inductionOn with
  | ih d ch ih =>
    obtain ⟨-, h2, -, h4⟩ := (SizeInv_mk d ch).mp h
    exact ⟨h2, (leafBufferBoundedList_iff ch).mpr
      fun c hc => ih c hc ((SizeInvList_iff d.capacity ch).mp h4 c hc).1⟩

theorem SizeInv_mkQuadNode (lower upper : Point2D) (cap : ℕ) (fl : Bool)
    (h4 : 4 ≤ cap) : SizeInv (mkQuadNode lower upper cap fl) := by
  rw [mkQuadNode]
  exact (SizeInv_mk _ _).mpr ⟨h4, fun _ => by simp, fun hF => by simp at hF, trivial⟩

theorem SizeInv_split (t : QuadNode) (h4 : 4 ≤ t.capacity) : SizeInv t.split := by
  obtain ⟨d, ch⟩ := t
  have hkey : ∀ l u, SizeInv (mkQuadNode l u d.capacity d.splitTheoretical) :=
    fun l u => SizeInv_mkQuadNode l u d.capacity d.splitTheoretical h4
  refine (SizeInv_mk _ _).mpr ⟨h4, ?_, ?_, ?_⟩
  · intro hF; simp at hF
  · intro _
    simp [realCountList, realCount, mkQuadNode]
  · exact ⟨⟨hkey _ _, rfl⟩, ⟨hkey _ _, rfl⟩, ⟨hkey _ _, rfl⟩, ⟨hkey _ _, rfl⟩, trivial⟩

/-- The concatenated buffers of a list of leaves hold exactly its true
element count. -/
theorem leaf_flatten_length (cs : List QuadNode) (h : ∀ c ∈ cs, c.isLeaf = true) :
    ((cs.map fun c => c.content).flatten).length = realCountList cs := by
  induction cs with
  | nil => simp [realCountList]
  | cons c cs ih =>
    simp only [List.map_cons, List.flatten_cons, List.length_append, realCountList]
    rw [ih (fun x hx => h x (by simp [hx]))]
    obtain ⟨d, chc⟩ := c
    have hc : realCount (.mk d chc) = d.content.length := by
      rw [realCount, if_pos (show d.isLeaf = true from h (.mk d chc) (by simp))]
    rw [hc]
    rfl

/-- An internal node stays internal under insertion. -/
theorem addContent_internal_isLeaf (fuel : ℕ) (t : QuadNode) (input : ℕ)
    (pos : Point2D) (t' : QuadNode) (hleaf : t.isLeaf = false)
    (hsome : addContent fuel t input pos = some t') : t'.isLeaf = false := by
  cases fuel with
  | zero => rw [addContent] at hsome; exact absurd hsome (by simp)
  | succ fuel =>
    obtain ⟨d, ch⟩ := t
    rw [addContent] at hsome
    rw [if_neg (by simp [hleaf])] at hsome
    cases hch : addToFirstResponsibleChild fuel ((QuadNode.mk d ch).children) input pos with
    | none => rw [hch] at hsome; exact absurd hsome (by simp)
    | some cs' =>
      rw [hch] at hsome
      simp only [Option.some.injEq] at hsome
      subst hsome
      exact hleaf

/-- An internal node stays internal under the re-insertion loop. -/
theorem reinsertAll_internal_isLeaf : ∀ (fuel : ℕ) (t : QuadNode)
    (cps : List (ℕ × Point2D)) (t' : QuadNode), t.isLeaf = false →
    reinsertAll fuel t cps = some t' → t'.isLeaf = false := by
  intro fuel
  induction fuel with
  | zero => intro t cps t' _ h; rw [reinsertAll] at h; exact absurd h (by simp)
  | succ fuel ih =>
    intro t cps t' hleaf h
    cases cps with
    | nil =>
      rw [reinsertAll] at h
      simp only [Option.some.injEq] at h
      subst h
      exact hleaf
    | cons cp rest =>
      rw [reinsertAll] at h
      cases hadd : addContent fuel t cp.1 cp.2 with
      | none => rw [hadd] at h; exact absurd h (by simp)
      | some t1 =>
        rw [hadd] at h
        exact ih t1 rest t' (addContent_internal_isLeaf fuel t cp.1 cp.2 t1 hleaf hadd) h

/-- Unfolding: insertion into a leaf with room appends to both buffers. -/
theorem addContent_leaf_room_eq (fuel : ℕ) (d : NodeData) (ch : List QuadNode)
    (input : ℕ) (pos : Point2D) (hleaf : d.isLeaf = true)
    (hroom : d.content.length + 1 < d.capacity) :
    addContent (fuel + 1) (.mk d ch) input pos =
      some (.mk { d with content := d.content ++ [input],
                         positions := d.positions ++ [pos] } ch) := by
  rw [addContent]
  rw [if_pos (show (QuadNode.mk d ch).isLeaf = true from hleaf),
    if_pos (show (QuadNode.mk d ch).content.length + 1 < (QuadNode.mk d ch).capacity
      from hroom)]
  rfl

/-- A successful insertion into a full leaf leaves the node internal — the
leaf was split before the new element was placed. -/
theorem addContent_full_leaf_splits (fuel : ℕ) (t : QuadNode) (input : ℕ)
    (pos : Point2D) (t' : QuadNode) (hleaf : t.isLeaf = true)
    (hfull : ¬ t.content.length + 1 < t.capacity)
    (hsome : addContent (fuel + 1) t input pos = some t') : t'.isLeaf = false := by
  obtain ⟨d, ch⟩ := t
  rw [addContent] at hsome
  rw [if_pos hleaf, if_neg hfull] at hsome
  cases hreins : reinsertAll fuel (QuadNode.split (.mk d ch))
      ((QuadNode.mk d ch).content.zip (QuadNode.mk d ch).positions) with
  | none => rw [hreins] at hsome; exact absurd hsome (by simp)
  | some tr =>
    rw [hreins] at hsome
    have htr : tr.isLeaf = false := reinsertAll_internal_isLeaf fuel _ _ tr
      (split_region (QuadNode.mk d ch)).2.2.2.2.2 hreins
    obtain ⟨dtr, chtr⟩ := tr
    have hsome' : addContent fuel (QuadNode.mk { dtr with
        subTreeSize := (QuadNode.mk d ch).content.length,
        content := [], positions := [] } chtr) input pos = some t' := hsome
    exact addContent_internal_isLeaf fuel (QuadNode.mk { dtr with
        subTreeSize := (QuadNode.mk d ch).content.length,
        content := [], positions := [] } chtr) input pos t'
      (show ({ dtr with
        subTreeSize := (QuadNode.mk d ch).content.length,
        content := [], positions := [] } : NodeData).isLeaf = false from htr) hsome'

/-- Joint preservation statement for the size/capacity invariant under
`addContent`, its re-insertion loop, and its child loop: the invariant is
preserved and each successful call stores at most one new element. -/
theorem addContent_SizeInv_aux : ∀ fuel : ℕ,
    (∀ (t : QuadNode) (input : ℕ) (pos : Point2D) (t' : QuadNode), SizeInv t →
       addContent fuel t input pos = some t' →
       SizeInv t' ∧ realCount t' ≤ realCount t + 1 ∧ t'.capacity = t.capacity ∧
       (t.isLeaf = false → t'.isLeaf = false)) ∧
    (∀ (t : QuadNode) (cps : List (ℕ × Point2D)) (t' : QuadNode), SizeInv t →
       reinsertAll fuel t cps = some t' →
       SizeInv t' ∧ realCount t' ≤ realCount t + cps.length ∧
       t'.capacity = t.capacity ∧
       (t.isLeaf = false → t'.isLeaf = false)) ∧
    (∀ (cs : List QuadNode) (cap : ℕ) (input : ℕ) (pos : Point2D) (cs' : List QuadNode),
       SizeInvList cap cs →
       addToFirstResponsibleChild fuel cs input pos = some cs' →
       SizeInvList cap cs' ∧ realCountList cs' ≤ realCountList cs + 1) := by
  intro fuel
  induction fuel with
  | zero =>
    refine ⟨?_, ?_, ?_⟩
    · intro t input pos t' _ h; rw [addContent] at h; exact absurd h (by simp)
    · intro t cps t' _ h; rw [reinsertAll] at h; exact absurd h (by simp)
    · intro cs cap input pos cs' _ h
      rw [addToFirstResponsibleChild] at h; exact absurd h (by simp)
  | succ fuel IH =>
    obtain ⟨IHadd, IHreins, IHchild⟩ := IH
    have Hchild : ∀ (cs : List QuadNode) (cap : ℕ) (input : ℕ) (pos : Point2D)
        (cs' : List QuadNode), SizeInvList cap cs →
        addToFirstResponsibleChild (fuel + 1) cs input pos = some cs' →
        SizeInvList cap cs' ∧ realCountList cs' ≤ realCountList cs + 1 := by
      intro cs
      cases cs with
      | nil =>
        intro cap input pos cs' _ hsome
        rw [addToFirstResponsibleChild] at hsome
        simp only [Option.some.injEq] at hsome
        subst hsome
        exact ⟨trivial, by simp [realCountList]⟩
      | cons c cs =>
        intro cap input pos cs' hSz hsome
        rw [addToFirstResponsibleChild] at hsome
        obtain ⟨⟨hcSz, hcCap⟩, hcsSz⟩ := hSz
        by_cases hresp : c.responsible pos
        · rw [if_pos hresp] at hsome
          cases hadd : addContent fuel c input pos with
          | none => rw [hadd] at hsome; exact absurd hsome (by simp)
          | some c' =>
            rw [hadd] at hsome
            simp only [Option.map_some', Option.some.injEq] at hsome
            subst hsome
            obtain ⟨hc'Sz, hc'Le, hc'Cap, -⟩ := IHadd c input pos c' hcSz hadd
            refine ⟨⟨⟨hc'Sz, by rw [hc'Cap, hcCap]⟩, hcsSz⟩, ?_⟩
            simp only [realCountList]
            omega
        · rw [if_neg hresp] at hsome
          cases hrec : addToFirstResponsibleChild fuel cs input pos with
          | none => rw [hrec] at hsome; exact absurd hsome (by simp)
          | some cs'' =>
            rw [hrec] at hsome
            simp only [Option.map_some', Option.some.injEq] at hsome
            subst hsome
            obtain ⟨hSz'', hLe''⟩ := IHchild cs cap input pos cs'' hcsSz hrec
            refine ⟨⟨⟨hcSz, hcCap⟩, hSz''⟩, ?_⟩
            simp only [realCountList]
            omega
    have Hadd : ∀ (t : QuadNode) (input : ℕ) (pos : Point2D) (t' : QuadNode), SizeInv t →
        addContent (fuel + 1) t input pos = some t' →
        SizeInv t' ∧ realCount t' ≤ realCount t + 1 ∧ t'.capacity = t.capacity ∧
        (t.isLeaf = false → t'.isLeaf = false) := by
      intro t input pos t' hSz hsome
      obtain ⟨d, ch⟩ := t
      obtain ⟨h4, hLeafCl, hIntCl, hChCl⟩ := (SizeInv_mk d ch).mp hSz
      rw [addContent] at hsome
      by_cases hleaf : d.isLeaf = true
      · rw [if_pos (show (QuadNode.mk d ch).isLeaf = true from hleaf)] at hsome
        by_cases hroom : d.content.length + 1 < d.capacity
        · rw [if_pos (show (QuadNode.mk d ch).content.length + 1 <
            (QuadNode.mk d ch).capacity from hroom)] at hsome
          simp only [Option.some.injEq] at hsome
          subst hsome
          simp only [data_mk, children_mk]
          refine ⟨(SizeInv_mk _ _).mpr ⟨h4, ?_, ?_, hChCl⟩, ?_, rfl,
            fun hF => absurd (show d.isLeaf = false from hF) (by simp [hleaf])⟩
          · intro _
            simp
            omega
          · intro hF
            exact absurd (hleaf ▸ show d.isLeaf = false from hF) (by simp)
          · simp [realCount, hleaf]
        · rw [if_neg (show ¬ ((QuadNode.mk d ch).content.length + 1 <
            (QuadNode.mk d ch).capacity) from hroom)] at hsome
          cases hreins : reinsertAll fuel (QuadNode.split (.mk d ch))
              ((QuadNode.mk d ch).content.zip (QuadNode.mk d ch).positions) with
          | none => rw [hreins] at hsome; exact absurd hsome (by simp)
          | some tr =>
            rw [hreins] at hsome
            have hsplitSz : SizeInv (QuadNode.split (.mk d ch)) :=
              SizeInv_split (QuadNode.mk d ch) h4
            obtain ⟨hTrSz, hTrLe, hTrCap, hTrLeaf⟩ := IHreins _ _ _ hsplitSz hreins
            have hTrInternal : tr.isLeaf = false :=
              hTrLeaf (split_region (QuadNode.mk d ch)).2.2.2.2.2
            have hSplitCount : realCount (QuadNode.split (.mk d ch)) = 0 := by
              rw [realCount.eq_def]
              simp [split, mkQuadNode, realCountList, realCount]
            obtain ⟨dtr, chtr⟩ := tr
            have hsome' : addContent fuel (QuadNode.mk { dtr with
                subTreeSize := d.content.length,
                content := [], positions := [] } chtr) input pos = some t' := hsome
            obtain ⟨h4tr, -, hIntTr, hChTr⟩ := (SizeInv_mk dtr chtr).mp hTrSz
            have hCountTr : realCountList chtr ≤ d.content.length := by
              have hzlen : ((QuadNode.mk d ch).content.zip
                  (QuadNode.mk d ch).positions).length ≤ d.content.length := by
                rw [List.length_zip]
                exact min_le_left _ _
              have : realCount (QuadNode.mk dtr chtr) = realCountList chtr := by
                rw [realCount, if_neg (by
                  simp [show dtr.isLeaf = false from hTrInternal])]
              omega
            have htr2Sz : SizeInv (QuadNode.mk { dtr with
                subTreeSize := d.content.length,
                content := [], positions := [] } chtr) := by
              refine (SizeInv_mk _ _).mpr ⟨h4tr, ?_, ?_, hChTr⟩
              · intro _
                simp only [List.length_nil]
                omega
              · intro _
                exact hCountTr
            obtain ⟨hSz', hLe', hCap', hLeaf'⟩ := IHadd _ input pos t' htr2Sz hsome'
            have htr2Count : realCount (QuadNode.mk { dtr with
                subTreeSize := d.content.length,
                content := [], positions := [] } chtr) = realCountList chtr := by
              rw [realCount, if_neg (by
                simp [show dtr.isLeaf = false from hTrInternal])]
            refine ⟨hSz', ?_, ?_,
              fun hF => absurd (show d.isLeaf = false from hF) (by simp [hleaf])⟩
            · have hRc : realCount (QuadNode.mk d ch) = d.content.length := by
                rw [realCount, if_pos hleaf]
              rw [hRc]
              rw [htr2Count] at hLe'
              omega
            · rw [hCap']
              exact hTrCap
      · rw [if_neg (show ¬ ((QuadNode.mk d ch).isLeaf = true) from hleaf)] at hsome
        replace hleaf : d.isLeaf = false := by simpa using hleaf
        cases hchild : addToFirstResponsibleChild fuel
            ((QuadNode.mk d ch).children) input pos with
        | none => rw [hchild] at hsome; exact absurd hsome (by simp)
        | some cs' =>
          rw [hchild] at hsome
          simp only [Option.some.injEq, data_mk] at hsome
          subst hsome
          obtain ⟨hSz'', hLe''⟩ := IHchild ch d.capacity input pos cs' hChCl hchild
          refine ⟨(SizeInv_mk _ _).mpr ⟨h4, ?_, ?_, hSz''⟩, ?_, rfl, fun _ => hleaf⟩
          · intro hF
            exact absurd (show d.isLeaf = true from hF) (by simp [hleaf])
          · intro _
            have := hIntCl hleaf
            show realCountList cs' ≤ d.subTreeSize + 1
            omega
          · have hnew : realCount (QuadNode.mk
                { d with subTreeSize := d.subTreeSize + 1 } cs') = realCountList cs' := by
              rw [realCount, if_neg (by simp [hleaf])]
            have hold : realCount (QuadNode.mk d ch) = realCountList ch := by
              rw [realCount, if_neg (by simp [hleaf])]
            rw [hnew, hold]
            exact hLe''
    have Hreins : ∀ (t : QuadNode) (cps : List (ℕ × Point2D)) (t' : QuadNode), SizeInv t →
        reinsertAll (fuel + 1) t cps = some t' →
        SizeInv t' ∧ realCount t' ≤ realCount t + cps.length ∧
        t'.capacity = t.capacity ∧
        (t.isLeaf = false → t'.isLeaf = false) := by
      intro t cps
      cases cps with
      | nil =>
        intro t' hSz hsome
        rw [reinsertAll] at hsome
        simp only [Option.some.injEq] at hsome
        subst hsome
        exact ⟨hSz, by simp, rfl, fun h => h⟩
      | cons cp rest =>
        intro t' hSz hsome
        rw [reinsertAll] at hsome
        cases hadd : addContent fuel t cp.1 cp.2 with
        | none => rw [hadd] at hsome; exact absurd hsome (by simp)
        | some t1 =>
          rw [hadd] at hsome
          have hsome2 : reinsertAll fuel t1 rest = some t' := hsome
          obtain ⟨h1Sz, h1Le, h1Cap, h1Leaf⟩ := IHadd t cp.1 cp.2 t1 hSz hadd
          obtain ⟨h2Sz, h2Le, h2Cap, h2Leaf⟩ := IHreins t1 rest t' h1Sz hsome2
          refine ⟨h2Sz, ?_, by rw [h2Cap]; exact h1Cap, fun hF => h2Leaf (h1Leaf hF)⟩
          simp only [List.length_cons]
          omega
    exact ⟨Hadd, Hreins, Hchild⟩

/-- Successful insertion preserves the size/capacity invariant. -/
theorem addContent_SizeInv (fuel : ℕ) (t : QuadNode) (input : ℕ) (pos : Point2D)
    (t' : QuadNode) (hSz : SizeInv t) (hsome : addContent fuel t input pos = some t') :
    SizeInv t' :=
  ((addContent_SizeInv_aux fuel).1 t input pos t' hSz hsome).1

/-- Removal preserves the size/capacity invariant; the true element count
never grows, and strictly decreases when the removal reports success. -/
theorem removeContent_SizeInv_aux :
    ∀ t : QuadNode, SizeInv t → ∀ (input : ℕ) (pos : Point2D),
      SizeInv ((t.removeContent input pos).2) ∧
      realCount ((t.removeContent input pos).2) ≤ realCount t ∧
      ((t.removeContent input pos).1 = true →
        realCount ((t.removeContent input pos).2) + 1 ≤ realCount t) := by
  intro t
  induction t using inductionOn with
  | ih d ch ih =>
    intro hSz input pos
    obtain ⟨h4, hLeafCl, hIntCl, hChCl⟩ := (SizeInv_mk d ch).mp hSz
    by_cases hresp : (QuadNode.mk d ch).responsible pos
    · by_cases hleaf : d.isLeaf = true
      · cases hfind : d.content.findIdx? (· == input) with
        | none =>
          have heq : removeContent (.mk d ch) input pos = (false, .mk d ch) := by
            rw [removeContent_leaf_eq d ch input pos hresp hleaf, hfind]
          rw [heq]
          exact ⟨hSz, le_refl _, fun h => by simp at h⟩
        | some i =>
          have heq : removeContent (.mk d ch) input pos =
              (true, .mk { d with
                content := d.content.eraseIdx i,
                positions := d.positions.eraseIdx i } ch) := by
            rw [removeContent_leaf_eq d ch input pos hresp hleaf, hfind]
          rw [heq]
          have hi : i < d.content.length :=
            (List.findIdx?_eq_some_iff_findIdx_eq.mp hfind).1
          have hlen : (d.content.eraseIdx i).length = d.content.length - 1 :=
            List.length_eraseIdx_of_lt hi
          have hRc : realCount (QuadNode.mk d ch) = d.content.length := by
            rw [realCount, if_pos hleaf]
          have hRc' : realCount (.mk { d with
              content := d.content.eraseIdx i,
              positions := d.positions.eraseIdx i } ch) = (d.content.eraseIdx i).length := by
            rw [realCount, if_pos (show d.isLeaf = true from hleaf)]
          refine ⟨(SizeInv_mk _ _).mpr ⟨h4, ?_, ?_, hChCl⟩, ?_, ?_⟩
          · intro _
            have := hLeafCl hleaf
            show (d.content.eraseIdx i).length ≤ d.capacity - 1
            omega
          · intro hF
            exact absurd hleaf (by simp [show d.isLeaf = false from hF])
          · rw [hRc', hRc]
            omega
          · intro _
            rw [hRc', hRc]
            omega
      · replace hleaf : d.isLeaf = false := by simpa using hleaf
        have hchFacts : ∀ cs : List QuadNode, (∀ c ∈ cs, c ∈ ch) →
            SizeInvList d.capacity cs →
            SizeInvList d.capacity ((cs.map fun c => removeContent c input pos).map
              fun r => r.2) ∧
            realCountList ((cs.map fun c => removeContent c input pos).map fun r => r.2)
              ≤ realCountList cs ∧
            (((cs.map fun c => removeContent c input pos).any fun r => r.1) = true →
              realCountList ((cs.map fun c => removeContent c input pos).map fun r => r.2)
                + 1 ≤ realCountList cs) := by
          intro cs
          induction cs with
          | nil =>
            intro _ _
            exact ⟨trivial, le_refl _, fun h => by simp at h⟩
          | cons c cs ihcs =>
            intro hsub hSzL
            obtain ⟨⟨hcSz, hcCap⟩, hcsSz⟩ := hSzL
            obtain ⟨h1, h2, h3⟩ := ih c (hsub c (by simp)) hcSz input pos
            obtain ⟨l1, l2, l3⟩ := ihcs (fun x hx => hsub x (by simp [hx])) hcsSz
            refine ⟨⟨⟨h1, ?_⟩, l1⟩, ?_, ?_⟩
            · rw [(removeContent_data_eq c input pos).2.2.2.2.1, hcCap]
            · simp only [List.map_cons, realCountList]
              omega
            · intro hany
              simp only [List.map_cons, List.any_cons, Bool.or_eq_true] at hany
              simp only [List.map_cons, realCountList]
              rcases hany with hhead | hrest
              · have := h3 hhead
                omega
              · have := l3 hrest
                omega
        by_cases hrem : ((ch.map fun c => removeContent c input pos).any fun r => r.1) = true
        · obtain ⟨hLSz, hLLe, hLDec⟩ := hchFacts ch (fun c hc => hc) hChCl
          have hdec := hLDec hrem
          have hRcT : realCount (QuadNode.mk d ch) = realCountList ch := by
            rw [realCount, if_neg (by simp [hleaf])]
          have hBound := hIntCl hleaf
          by_cases hco : (ch.all fun c => c.isLeaf) = true ∧ d.subTreeSize - 1 < coarsenLimit
          · rw [removeContent_internal_coarsen d ch input pos hresp hleaf hrem hco.1 hco.2]
            have hleaves : ∀ r ∈ (ch.map fun c => removeContent c input pos).map
                (fun r => r.2), r.isLeaf = true := by
              intro r hr
              simp only [List.map_map, List.mem_map, Function.comp_def] at hr
              obtain ⟨c, hc, rfl⟩ := hr
              exact removeContent_isLeaf_of_leaf c input pos
                ((List.all_eq_true.mp hco.1) c hc)
            have hflat := leaf_flatten_length _ hleaves
            have hRc' : realCount (.mk { d with
                subTreeSize := d.subTreeSize - 1,
                content := ((((ch.map fun c => removeContent c input pos).map
                  fun r => r.2).map fun c => c.content)).flatten,
                positions := ((((ch.map fun c => removeContent c input pos).map
                  fun r => r.2).map fun c => c.positions)).flatten,
                isLeaf := true } []) =
                ((((ch.map fun c => removeContent c input pos).map
                  fun r => r.2).map fun c => c.content)).flatten.length := by
              rw [realCount, if_pos rfl]
            have hsz4 : d.subTreeSize - 1 < 4 := hco.2
            refine ⟨(SizeInv_mk _ _).mpr ⟨h4, ?_, ?_, trivial⟩, ?_, ?_⟩
            · intro _
              show ((((ch.map fun c => removeContent c input pos).map
                fun r => r.2).map fun c => c.content)).flatten.length ≤ d.capacity - 1
              omega
            · intro hF
              simp at hF
            · rw [hRc', hRcT]
              omega
            · intro _
              rw [hRc', hRcT]
              omega
          · rw [removeContent_internal_noCoarsen d ch input pos hresp hleaf hrem hco]
            have hRc' : realCount (.mk { d with subTreeSize := d.subTreeSize - 1 }
                ((ch.map fun c => removeContent c input pos).map fun r => r.2)) =
                realCountList ((ch.map fun c => removeContent c input pos).map
                  fun r => r.2) := by
              rw [realCount, if_neg (by simp [hleaf])]
            refine ⟨(SizeInv_mk _ _).mpr ⟨h4, ?_, ?_, hLSz⟩, ?_, ?_⟩
            · intro hF
              exact absurd hleaf (by simp [show d.isLeaf = true from hF])
            · intro _
              show realCountList ((ch.map fun c => removeContent c input pos).map
                fun r => r.2) ≤ d.subTreeSize - 1
              omega
            · rw [hRc', hRcT]
              omega
            · intro _
              rw [hRc', hRcT]
              omega
        · replace hrem : ((ch.map fun c => removeContent c input pos).any fun r => r.1)
              = false := by simpa using hrem
          have hfst : (removeContent (.mk d ch) input pos).1 = false := by
            rw [removeContent_internal_notRemoved d ch input pos hresp hleaf hrem]
          have hunch := removeContent_false_eq _ input pos hfst
          rw [hunch]
          refine ⟨hSz, le_refl _, fun hT => ?_⟩
          rw [hfst] at hT
          exact absurd hT (by simp)
    · rw [removeContent_not_responsible _ _ _ hresp]
      exact ⟨hSz, le_refl _, fun h => by simp at h⟩

/-- Removal preserves the size/capacity invariant. -/
theorem removeContent_SizeInv (t : QuadNode) (hSz : SizeInv t) (input : ℕ)
    (pos : Point2D) : SizeInv ((t.removeContent input pos).2) :=
  (removeContent_SizeInv_aux t hSz input pos).1

/-- A build step preserves the size/capacity invariant. -/
theorem buildStep_SizeInv (fuel : ℕ) (t : QuadNode) (op : TreeOp) (t' : QuadNode)
    (hSz : SizeInv t) (hsome : buildStep fuel t op = some t') : SizeInv t' := by
  cases op with
  | insert input pos =>
    rw [buildStep] at hsome
    by_cases hresp : t.responsible pos
    · rw [if_pos hresp] at hsome
      exact addContent_SizeInv fuel t input pos t' hSz hsome
    · rw [if_neg hresp] at hsome
      exact absurd hsome (by simp)
  | remove input pos =>
    rw [buildStep] at hsome
    simp only [Option.some.injEq] at hsome
    subst hsome
    exact removeContent_SizeInv t hSz input pos

/-- Every tree built with capacity at least 4 satisfies the size/capacity
invariant. -/
theorem build_SizeInv (lower upper : Point2D) (cap : ℕ) (fl : Bool) (fuel : ℕ)
    (ops : List TreeOp) (t : QuadNode) (h4 : 4 ≤ cap)
    (hsome : build lower upper cap fl fuel ops = some t) : SizeInv t := by
  rw [build] at hsome
  have haux : ∀ (l : List TreeOp) (t0 : QuadNode), SizeInv t0 →
      l.foldlM (fun t op => buildStep fuel t op) t0 = some t → SizeInv t := by
    intro l
    induction l with
    | nil =>
      intro t0 h0 hfold
      simp only [List.foldlM_nil, Option.pure_def, Option.some.injEq] at hfold
      subst hfold
      exact h0
    | cons op ops ihops =>
      intro t0 h0 hfold
      rw [List.foldlM_cons] at hfold
      cases hstep : buildStep fuel t0 op with
      | none => rw [hstep] at hfold; exact absurd hfold (by simp)
      | some t1 =>
        rw [hstep] at hfold
        exact ihops t1 (buildStep_SizeInv fuel t0 op t1 h0 hstep) hfold
  exact haux ops _ (SizeInv_mkQuadNode lower upper cap fl h4) hsome

/-- **C4** (amended) — with the capacity at least 4 (so that coarsening,
which can merge up to three remaining elements into one leaf, never
overflows), every tree reachable by insertions and removals keeps every
leaf buffer within `capacity - 1` elements; insertion appends to a leaf
exactly when `buffer length + 1 < capacity`, and a successful insertion
into a leaf already at the bound splits the leaf before placing the new
element (the node comes back internal). -/
theorem claim_C4_leaf_buffer_bound (lower upper : Point2D) (cap : ℕ) (fl : Bool)
    (fuel fuel2 : ℕ) (ops : List TreeOp) (t t' : QuadNode) (input : ℕ) (pos : Point2D)
    (d : NodeData) (ch : List QuadNode) (h4 : 4 ≤ cap)
    (hbuild : build lower upper cap fl fuel ops = some t) :
    leafBufferBounded t ∧
    (d.isLeaf = true → d.content.length + 1 < d.capacity →
      addContent (fuel2 + 1) (.mk d ch) input pos =
        some (.mk { d with
          content := d.content ++ [input],
          positions := d.positions ++ [pos] } ch)) ∧
    ((QuadNode.mk d ch).isLeaf = true →
      ¬ (QuadNode.mk d ch).content.length + 1 < (QuadNode.mk d ch).capacity →
      addContent (fuel2 + 1) (.mk d ch) input pos = some t' → t'.isLeaf = false) :=
  ⟨leafBufferBounded_of_SizeInv t (build_SizeInv lower upper cap fl fuel ops t h4 hbuild),
   fun hleaf hroom => addContent_leaf_room_eq fuel2 d ch input pos hleaf hroom,
   fun hleaf hfull hsome =>
     addContent_full_leaf_splits fuel2 (.mk d ch) input pos t' hleaf hfull hsome⟩

/-- Witness for the amended C4 on the concrete one-element build. -/
theorem claim_C4_witness :
    (4 ≤ 4 ∧ build ⟨0, 0⟩ ⟨1, 1⟩ 4 true 20 exampleOps = some exampleLeaf) ∧
    leafBufferBounded exampleLeaf :=
  ⟨⟨le_refl 4, build_exampleOps⟩,
   (claim_C4_leaf_buffer_bound ⟨0, 0⟩ ⟨1, 1⟩ 4 true 20 0 exampleOps exampleLeaf
     exampleLeaf 0 ⟨0, 0⟩ exampleLeaf.data [] (by norm_num) build_exampleOps).1⟩

set_option maxHeartbeats 4000000 in
set_option maxRecDepth 4000 in
/-- **C4** (counterexample) — the unconditional leaf bound of the claim
fails for small capacities: with capacity 2 the five operations of `c4ops`
(which force a split and then a coarsening) produce a reachable steady-state
leaf holding 3 elements, exceeding `capacity - 1 = 1`. -/
theorem claim_C4_counterexample :
    (build ⟨0, 0⟩ ⟨4, 4⟩ 2 true 20 c4ops).map
      (fun t => (t.isLeaf, t.capacity, t.content.length)) = some (true, 2, 3) := by
  have h1 : buildStep 20 (mkQuadNode ⟨0, 0⟩ ⟨4, 4⟩ 2 true) (.insert 0 ⟨1, 1⟩) =
      some (c4leaf 0 0 4 4 [0] [⟨1, 1⟩]) := by
    norm_num [buildStep, addContent, mkQuadNode, c4leaf, responsible, Point2D.getX,
      Point2D.getY, minX, minY, maxX, maxY, capacity, content, positions, isLeaf,
      subTreeSize]
  have hsplit : QuadNode.split (c4leaf 0 0 4 4 [0] [⟨1, 1⟩]) =
      (.mk
        { minX := 0, minY := 0, maxX := 4, maxY := 4, capacity := 2,
          subTreeSize := 0, content := [0], positions := [⟨1, 1⟩], isLeaf := false,
          splitTheoretical := true, ID := 0 }
        [c4leaf 0 0 2 2 [] [], c4leaf 2 0 4 2 [] [],
         c4leaf 0 2 2 4 [] [], c4leaf 2 2 4 4 [] []]) := by
    norm_num [split, mkQuadNode, c4leaf, minX, minY, maxX, maxY, capacity,
      splitTheoretical, positions, content, data, Point2D.getX, Point2D.getY]
  have hzip : ((c4leaf 0 0 4 4 [0] [⟨1, 1⟩]).content.zip
      (c4leaf 0 0 4 4 [0] [⟨1, 1⟩]).positions) = [((0 : ℕ), (⟨1, 1⟩ : Point2D))] := by
    norm_num [c4leaf, content, positions, data, List.zip]
  have haddS : addContent 18
      (.mk
        { minX := 0, minY := 0, maxX := 4, maxY := 4, capacity := 2,
          subTreeSize := 0, content := [0], positions := [⟨1, 1⟩], isLeaf := false,
          splitTheoretical := true, ID := 0 }
        [c4leaf 0 0 2 2 [] [], c4leaf 2 0 4 2 [] [],
         c4leaf 0 2 2 4 [] [], c4leaf 2 2 4 4 [] []]) 0 ⟨1, 1⟩ =
      some (.mk
        { minX := 0, minY := 0, maxX := 4, maxY := 4, capacity := 2,
          subTreeSize := 1, content := [0], positions := [⟨1, 1⟩], isLeaf := false,
          splitTheoretical := true, ID := 0 }
        [c4leaf 0 0 2 2 [0] [⟨1, 1⟩], c4leaf 2 0 4 2 [] [],
         c4leaf 0 2 2 4 [] [], c4leaf 2 2 4 4 [] []]) := by
    norm_num [addContent, addToFirstResponsibleChild, c4leaf, responsible,
      Point2D.getX, Point2D.getY, minX, minY, maxX, maxY, capacity, content,
      positions, isLeaf, subTreeSize, data, children]
  have hr : reinsertAll 19
      (.mk
        { minX := 0, minY := 0, maxX := 4, maxY := 4, capacity := 2,
          subTreeSize := 0, content := [0], positions := [⟨1, 1⟩], isLeaf := false,
          splitTheoretical := true, ID := 0 }
        [c4leaf 0 0 2 2 [] [], c4leaf 2 0 4 2 [] [],
         c4leaf 0 2 2 4 [] [], c4leaf 2 2 4 4 [] []]) [((0 : ℕ), (⟨1, 1⟩ : Point2D))] =
      some (.mk
        { minX := 0, minY := 0, maxX := 4, maxY := 4, capacity := 2,
          subTreeSize := 1, content := [0], positions := [⟨1, 1⟩], isLeaf := false,
          splitTheoretical := true, ID := 0 }
        [c4leaf 0 0 2 2 [0] [⟨1, 1⟩], c4leaf 2 0 4 2 [] [],
         c4leaf 0 2 2 4 [] [], c4leaf 2 2 4 4 [] []]) := by
    rw [show (19 : ℕ) = 18 + 1 from rfl, reinsertAll]
    have hcast : addContent 18
        (.mk
        { minX := 0, minY := 0, maxX := 4, maxY := 4, capacity := 2,
          subTreeSize := 0, content := [0], positions := [⟨1, 1⟩], isLeaf := false,
          splitTheoretical := true, ID := 0 }
        [c4leaf 0 0 2 2 [] [], c4leaf 2 0 4 2 [] [],
         c4leaf 0 2 2 4 [] [], c4leaf 2 2 4 4 [] []]) (((0 : ℕ), (⟨1, 1⟩ : Point2D)).1) (((0 : ℕ), (⟨1, 1⟩ : Point2D)).2) =
        some (.mk
        { minX := 0, minY := 0, maxX := 4, maxY := 4, capacity := 2,
          subTreeSize := 1, content := [0], positions := [⟨1, 1⟩], isLeaf := false,
          splitTheoretical := true, ID := 0 }
        [c4leaf 0 0 2 2 [0] [⟨1, 1⟩], c4leaf 2 0 4 2 [] [],
         c4leaf 0 2 2 4 [] [], c4leaf 2 2 4 4 [] []]) := haddS
    rw [hcast]
    show reinsertAll 18
      (.mk
        { minX := 0, minY := 0, maxX := 4, maxY := 4, capacity := 2,
          subTreeSize := 1, content := [0], positions := [⟨1, 1⟩], isLeaf := false,
          splitTheoretical := true, ID := 0 }
        [c4leaf 0 0 2 2 [0] [⟨1, 1⟩], c4leaf 2 0 4 2 [] [],
         c4leaf 0 2 2 4 [] [], c4leaf 2 2 4 4 [] []]) [] =
      some (.mk
        { minX := 0, minY := 0, maxX := 4, maxY := 4, capacity := 2,
          subTreeSize := 1, content := [0], positions := [⟨1, 1⟩], isLeaf := false,
          splitTheoretical := true, ID := 0 }
        [c4leaf 0 0 2 2 [0] [⟨1, 1⟩], c4leaf 2 0 4 2 [] [],
         c4leaf 0 2 2 4 [] [], c4leaf 2 2 4 4 [] []])
    rw [show (18 : ℕ) = 17 + 1 from rfl, reinsertAll]
  have haddNE : addContent 19
      (.mk
        { minX := 0, minY := 0, maxX := 4, maxY := 4, capacity := 2,
          subTreeSize := 1, content := [], positions := [], isLeaf := false,
          splitTheoretical := true, ID := 0 }
        [c4leaf 0 0 2 2 [0] [⟨1, 1⟩], c4leaf 2 0 4 2 [] [],
         c4leaf 0 2 2 4 [] [], c4leaf 2 2 4 4 [] []]) 1 ⟨3, 3⟩ =
      some (.mk
        { minX := 0, minY := 0, maxX := 4, maxY := 4, capacity := 2,
          subTreeSize := 2, content := [], positions := [], isLeaf := false,
          splitTheoretical := true, ID := 0 }
        [c4leaf 0 0 2 2 [0] [⟨1, 1⟩], c4leaf 2 0 4 2 [] [],
         c4leaf 0 2 2 4 [] [], c4leaf 2 2 4 4 [1] [⟨3, 3⟩]]) := by
    norm_num [addContent, addToFirstResponsibleChild, c4leaf, responsible,
      Point2D.getX, Point2D.getY, minX, minY, maxX, maxY, capacity, content,
      positions, isLeaf, subTreeSize, data, children]
  have h2 : buildStep 20 (c4leaf 0 0 4 4 [0] [⟨1, 1⟩]) (.insert 1 ⟨3, 3⟩) =
      some (.mk
        { minX := 0, minY := 0, maxX := 4, maxY := 4, capacity := 2,
          subTreeSize := 2, content := [], positions := [], isLeaf := false,
          splitTheoretical := true, ID := 0 }
        [c4leaf 0 0 2 2 [0] [⟨1, 1⟩], c4leaf 2 0 4 2 [] [],
         c4leaf 0 2 2 4 [] [], c4leaf 2 2 4 4 [1] [⟨3, 3⟩]]) := by
    rw [buildStep, if_pos (by
      norm_num [responsible, c4leaf, minX, minY, maxX, maxY, Point2D.getX,
        Point2D.getY, data])]
    rw [show (20 : ℕ) = 19 + 1 from rfl, addContent]
    rw [if_pos (show (c4leaf 0 0 4 4 [0] [⟨1, 1⟩]).isLeaf = true from rfl)]
    rw [if_neg (by norm_num [c4leaf, content, capacity, data])]
    rw [hzip, hsplit, hr]
    exact haddNE
  have h3 : buildStep 20 (.mk
        { minX := 0, minY := 0, maxX := 4, maxY := 4,
          capacity := 2, subTreeSize := 2, content := [], positions := [],
          isLeaf := false, splitTheoretical := true, ID := 0 }
        [c4leaf 0 0 2 2 [0] [⟨1, 1⟩], c4leaf 2 0 4 2 [] [],
         c4leaf 0 2 2 4 [] [], c4leaf 2 2 4 4 [1] [⟨3, 3⟩]]) (.insert 2 ⟨3, 1⟩) =
      some (.mk
        { minX := 0, minY := 0, maxX := 4, maxY := 4, capacity := 2,
          subTreeSize := 3, content := [], positions := [], isLeaf := false,
          splitTheoretical := true, ID := 0 }
        [c4leaf 0 0 2 2 [0] [⟨1, 1⟩], c4leaf 2 0 4 2 [2] [⟨3, 1⟩],
         c4leaf 0 2 2 4 [] [], c4leaf 2 2 4 4 [1] [⟨3, 3⟩]]) := by
    norm_num [buildStep, addContent, addToFirstResponsibleChild, c4leaf, responsible,
      Point2D.getX, Point2D.getY, minX, minY, maxX, maxY, capacity, content, positions,
      isLeaf, subTreeSize, data, children]
  have h4 : buildStep 20 (.mk
        { minX := 0, minY := 0, maxX := 4, maxY := 4,
          capacity := 2, subTreeSize := 3, content := [], positions := [],
          isLeaf := false, splitTheoretical := true, ID := 0 }
        [c4leaf 0 0 2 2 [0] [⟨1, 1⟩], c4leaf 2 0 4 2 [2] [⟨3, 1⟩],
         c4leaf 0 2 2 4 [] [], c4leaf 2 2 4 4 [1] [⟨3, 3⟩]]) (.insert 3 ⟨1, 3⟩) =
      some (.mk
        { minX := 0, minY := 0, maxX := 4, maxY := 4, capacity := 2,
          subTreeSize := 4, content := [], positions := [], isLeaf := false,
          splitTheoretical := true, ID := 0 }
        [c4leaf 0 0 2 2 [0] [⟨1, 1⟩], c4leaf 2 0 4 2 [2] [⟨3, 1⟩],
         c4leaf 0 2 2 4 [3] [⟨1, 3⟩], c4leaf 2 2 4 4 [1] [⟨3, 3⟩]]) := by
    norm_num [buildStep, addContent, addToFirstResponsibleChild, c4leaf, responsible,
      Point2D.getX, Point2D.getY, minX, minY, maxX, maxY, capacity, content, positions,
      isLeaf, subTreeSize, data, children]
  have h5 : buildStep 20 (.mk
        { minX := 0, minY := 0, maxX := 4, maxY := 4,
          capacity := 2, subTreeSize := 4, content := [], positions := [],
          isLeaf := false, splitTheoretical := true, ID := 0 }
        [c4leaf 0 0 2 2 [0] [⟨1, 1⟩], c4leaf 2 0 4 2 [2] [⟨3, 1⟩],
         c4leaf 0 2 2 4 [3] [⟨1, 3⟩], c4leaf 2 2 4 4 [1] [⟨3, 3⟩]]) (.remove 0 ⟨1, 1⟩) =
      some (.mk
        { minX := 0, minY := 0, maxX := 4, maxY := 4, capacity := 2,
          subTreeSize := 3, content := [2, 3, 1],
          positions := [⟨3, 1⟩, ⟨1, 3⟩, ⟨3, 3⟩], isLeaf := true,
          splitTheoretical := true, ID := 0 } []) := by
    norm_num [buildStep, removeContent, removeContentList, c4leaf, responsible,
      Point2D.getX, Point2D.getY, coarsenLimit, List.findIdx?, minX, minY, maxX, maxY,
      capacity, content, positions, isLeaf, subTreeSize, data, children]
  norm_num [build, c4ops, List.foldlM_cons, List.foldlM_nil, Option.bind, h1, h2, h3,
    h4, h5, isLeaf, capacity, content, data]

theorem point_distance_nonneg (p q : Point2D) : 0 ≤ p.distance q :=
  Real.sqrt_nonneg _

theorem point_distance_self (p : Point2D) : p.distance p = 0 := by
  simp [Point2D.distance, Point2D.squaredDistance]

/-- Distance comparisons reduce to exact rational comparisons of the squared
distances. -/
theorem point_distance_le_of_sq_le (p r q : Point2D)
    (h : p.squaredDistance q ≤ r.squaredDistance q) : p.distance q ≤ r.distance q :=
  Real.sqrt_le_sqrt (by exact_mod_cast h)

/-- Clamping the query coordinate into `[lo, hi]` minimises the squared
coordinate difference over that interval. -/
theorem clamp_sq_le (qc lo hi a : ℚ) (hlo : lo ≤ a) (hhi : a ≤ hi) :
    (max lo (min qc hi) - qc) * (max lo (min qc hi) - qc) ≤ (a - qc) * (a - qc) := by
  rcases le_total qc lo with h1 | h1
  · have hm : min qc hi = qc := min_eq_left (le_trans h1 (le_trans hlo hhi))
    rw [hm, max_eq_left h1]
    nlinarith
  · rcases le_total qc hi with h2 | h2
    · rw [min_eq_left h2, max_eq_right h1]
      nlinarith
    · rw [min_eq_right h2, max_eq_right (le_trans hlo hhi)]
      nlinarith

/-- An interval endpoint maximises the squared coordinate difference over
the interval. -/
theorem sq_le_corner_max (qc lo hi a : ℚ) (hlo : lo ≤ a) (hhi : a ≤ hi) :
    (a - qc) * (a - qc) ≤ max ((lo - qc) * (lo - qc)) ((hi - qc) * (hi - qc)) := by
  rcases le_total a qc with h | h
  · exact le_max_of_le_left (by nlinarith)
  · exact le_max_of_le_right (by nlinarith)

theorem foldl_min_le_init : ∀ (l : List ℝ) (e : ℝ), l.foldl min e ≤ e := by
  intro l
  induction l with
  | nil => intro e; exact le_refl e
  | cons a l ih => intro e; exact le_trans (ih (min e a)) (min_le_left e a)

theorem foldl_min_le_mem : ∀ (l : List ℝ) (e x : ℝ), x ∈ l → l.foldl min e ≤ x := by
  intro l
  induction l with
  | nil => intro e x hx; simp at hx
  | cons a l ih =>
    intro e x hx
    rcases List.mem_cons.mp hx with rfl | hx
    · exact le_trans (foldl_min_le_init l (min e x)) (min_le_right e x)
    · exact ih (min e a) x hx

theorem foldl_min_mem : ∀ (l : List ℝ) (e : ℝ),
    l.foldl min e = e ∨ l.foldl min e ∈ l := by
  intro l
  induction l with
  | nil => intro e; exact Or.inl rfl
  | cons a l ih =>
    intro e
    rcases ih (min e a) with h | h
    · rcases le_total e a with h2 | h2
      · left
        rw [List.foldl_cons, h, min_eq_left h2]
      · right
        rw [List.foldl_cons, h, min_eq_right h2]
        exact List.mem_cons_self a l
    · right
      exact List.mem_cons_of_mem a h

theorem foldl_min_zero_eq (l : List ℝ) (h : ∀ x ∈ l, 0 ≤ x) : l.foldl min 0 = 0 := by
  rcases foldl_min_mem l 0 with h2 | h2
  · exact h2
  · exact le_antisymm (foldl_min_le_init l 0) (h _ h2)

/-- The seeded minimum fold of the source (`DBL_MAX` seed modelled by
seeding with the head) computes the least element of a nonempty list. -/
theorem cons_min_eq (e : ℝ) (es : List ℝ) (dmin : ℝ) (hmem : dmin ∈ e :: es)
    (hlb : ∀ x ∈ e :: es, dmin ≤ x) : es.foldl min e = dmin := by
  have h1 : es.foldl min e ≤ dmin := by
    rcases List.mem_cons.mp hmem with rfl | h
    · exact foldl_min_le_init es dmin
    · exact foldl_min_le_mem es e dmin h
  have h2 : dmin ≤ es.foldl min e := by
    rcases foldl_min_mem es e with h | h
    · rw [h]
      exact hlb e (List.mem_cons_self e es)
    · exact hlb _ (List.mem_cons_of_mem e h)
  exact le_antisymm h1 h2

theorem foldl_max_ge_init : ∀ (l : List ℝ) (e : ℝ),
    e ≤ l.foldl (fun m x => max x m) e := by
  intro l
  induction l with
  | nil => intro e; exact le_refl e
  | cons a l ih =>
    intro e
    exact le_trans (le_max_right a e) (ih (max a e))

theorem foldl_max_ge_mem : ∀ (l : List ℝ) (e x : ℝ), x ∈ l →
    x ≤ l.foldl (fun m x => max x m) e := by
  intro l
  induction l with
  | nil => intro e x hx; simp at hx
  | cons a l ih =>
    intro e x hx
    rcases List.mem_cons.mp hx with rfl | hx
    · exact le_trans (le_max_left x e) (foldl_max_ge_init l (max x e))
    · exact ih (max a e) x hx

theorem foldl_max_mem : ∀ (l : List ℝ) (e : ℝ),
    l.foldl (fun m x => max x m) e = e ∨ l.foldl (fun m x => max x m) e ∈ l := by
  intro l
  induction l with
  | nil => intro e; exact Or.inl rfl
  | cons a l ih =>
    intro e
    rcases ih (max a e) with h | h
    · rcases le_total a e with h2 | h2
      · left
        rw [List.foldl_cons, h, max_eq_right h2]
      · right
        rw [List.foldl_cons, h, max_eq_left h2]
        exact List.mem_cons_self a l
    · right
      exact List.mem_cons_of_mem a h

/-- Exactness of `EuclideanDistances`: its components are the least and the
greatest distance from the query to the node's closed rectangle, and the
minimum is `0` on responsible queries. -/
theorem EuclideanDistances_bounds (t : QuadNode) (q : Point2D)
    (hx : t.minX ≤ t.maxX) (hy : t.minY ≤ t.maxY) :
    IsLeast {d : ℝ | ∃ p : Point2D, inClosedRect t p ∧ d = p.distance q}
      (EuclideanDistances t q).1 ∧
    IsGreatest {d : ℝ | ∃ p : Point2D, inClosedRect t p ∧ d = p.distance q}
      (EuclideanDistances t q).2 ∧
    (t.responsible q → (EuclideanDistances t q).1 = 0) := by
  classical
  set cands : List Point2D :=
    (if q.x > t.minX ∧ q.x < t.maxX then
       [⟨q.x, t.maxY⟩, ⟨q.x, t.minY⟩] else []) ++
    (if q.y > t.minY ∧ q.y < t.maxY then
       [⟨t.maxX, q.y⟩, ⟨t.minX, q.y⟩] else []) ++
    [⟨t.minX, t.minY⟩, ⟨t.minX, t.maxY⟩, ⟨t.maxX, t.minY⟩, ⟨t.maxX, t.maxY⟩]
    with hcands
  have hfst : (EuclideanDistances t q).1 =
      (if t.responsible q then (cands.map (fun p => p.distance q)).foldl min 0
       else match cands.map (fun p => p.distance q) with
         | [] => 0
         | e :: es => es.foldl min e) := rfl
  have hsnd : (EuclideanDistances t q).2 =
      (cands.map (fun p => p.distance q)).foldl (fun m e => max e m) 0 := rfl
  have hmem_ite : ∀ (c : Prop) (inst : Decidable c) (l : List Point2D) (p : Point2D),
      p ∈ (if c then l else []) → c ∧ p ∈ l := by
    intro c inst l p hp
    by_cases h : c
    · rw [if_pos h] at hp
      exact ⟨h, hp⟩
    · rw [if_neg h] at hp
      simp at hp
  have hcand_rect : ∀ p ∈ cands, inClosedRect t p := by
    intro p hp
    rw [hcands] at hp
    rcases List.mem_append.mp hp with hp | hp
    · rcases List.mem_append.mp hp with hp | hp
      · obtain ⟨hc, hp⟩ := hmem_ite _ _ _ _ hp
        simp only [List.mem_cons, List.not_mem_nil, or_false] at hp
        rcases hp with rfl | rfl
        · exact ⟨le_of_lt hc.1, le_of_lt hc.2, hy, le_refl _⟩
        · exact ⟨le_of_lt hc.1, le_of_lt hc.2, le_refl _, hy⟩
      · obtain ⟨hc, hp⟩ := hmem_ite _ _ _ _ hp
        simp only [List.mem_cons, List.not_mem_nil, or_false] at hp
        rcases hp with rfl | rfl
        · exact ⟨hx, le_refl _, le_of_lt hc.1, le_of_lt hc.2⟩
        · exact ⟨le_refl _, hx, le_of_lt hc.1, le_of_lt hc.2⟩
    · simp only [List.mem_cons, List.not_mem_nil, or_false] at hp
      rcases hp with rfl | rfl | rfl | rfl
      · exact ⟨le_refl _, hx, le_refl _, hy⟩
      · exact ⟨le_refl _, hx, hy, le_refl _⟩
      · exact ⟨hx, le_refl _, le_refl _, hy⟩
      · exact ⟨hx, le_refl _, hy, le_refl _⟩
  have hd_nonneg : ∀ x ∈ cands.map (fun p => p.distance q), 0 ≤ x := by
    intro x hxm
    obtain ⟨p, -, rfl⟩ := List.mem_map.mp hxm
    exact point_distance_nonneg p q
  have hcorner_le : ∀ p ∈ ([⟨t.minX, t.minY⟩, ⟨t.minX, t.maxY⟩,
      ⟨t.maxX, t.minY⟩, ⟨t.maxX, t.maxY⟩] : List Point2D),
      p.distance q ≤ (EuclideanDistances t q).2 := by
    intro p hp
    rw [hsnd]
    apply foldl_max_ge_mem
    apply List.mem_map_of_mem
    rw [hcands]
    exact List.mem_append.mpr (Or.inr hp)
  have hub : ∀ r : Point2D, inClosedRect t r →
      r.distance q ≤ (EuclideanDistances t q).2 := by
    intro r hr
    obtain ⟨hr1, hr2, hr3, hr4⟩ := hr
    have hxm := sq_le_corner_max q.x t.minX t.maxX r.x hr1 hr2
    have hym := sq_le_corner_max q.y t.minY t.maxY r.y hr3 hr4
    rcases le_total ((t.minX - q.x) * (t.minX - q.x)) ((t.maxX - q.x) * (t.maxX - q.x))
        with hcx | hcx
    · rw [max_eq_right hcx] at hxm
      rcases le_total ((t.minY - q.y) * (t.minY - q.y)) ((t.maxY - q.y) * (t.maxY - q.y))
          with hcy | hcy
      · rw [max_eq_right hcy] at hym
        refine le_trans (point_distance_le_of_sq_le r ⟨t.maxX, t.maxY⟩ q ?_)
          (hcorner_le _ (by simp))
        show (r.x - q.x) * (r.x - q.x) + (r.y - q.y) * (r.y - q.y) ≤
          (t.maxX - q.x) * (t.maxX - q.x) + (t.maxY - q.y) * (t.maxY - q.y)
        exact add_le_add hxm hym
      · rw [max_eq_left hcy] at hym
        refine le_trans (point_distance_le_of_sq_le r ⟨t.maxX, t.minY⟩ q ?_)
          (hcorner_le _ (by simp))
        show (r.x - q.x) * (r.x - q.x) + (r.y - q.y) * (r.y - q.y) ≤
          (t.maxX - q.x) * (t.maxX - q.x) + (t.minY - q.y) * (t.minY - q.y)
        exact add_le_add hxm hym
    · rw [max_eq_left hcx] at hxm
      rcases le_total ((t.minY - q.y) * (t.minY - q.y)) ((t.maxY - q.y) * (t.maxY - q.y))
          with hcy | hcy
      · rw [max_eq_right hcy] at hym
        refine le_trans (point_distance_le_of_sq_le r ⟨t.minX, t.maxY⟩ q ?_)
          (hcorner_le _ (by simp))
        show (r.x - q.x) * (r.x - q.x) + (r.y - q.y) * (r.y - q.y) ≤
          (t.minX - q.x) * (t.minX - q.x) + (t.maxY - q.y) * (t.maxY - q.y)
        exact add_le_add hxm hym
      · rw [max_eq_left hcy] at hym
        refine le_trans (point_distance_le_of_sq_le r ⟨t.minX, t.minY⟩ q ?_)
          (hcorner_le _ (by simp))
        show (r.x - q.x) * (r.x - q.x) + (r.y - q.y) * (r.y - q.y) ≤
          (t.minX - q.x) * (t.minX - q.x) + (t.minY - q.y) * (t.minY - q.y)
        exact add_le_add hxm hym
  have hmax : IsGreatest {d : ℝ | ∃ p : Point2D, inClosedRect t p ∧ d = p.distance q}
      (EuclideanDistances t q).2 := by
    constructor
    · rcases foldl_max_mem (cands.map (fun p => p.distance q)) 0 with h | h
      · have hc0mem : (⟨t.minX, t.minY⟩ : Point2D) ∈ cands := by
          rw [hcands]
          exact List.mem_append.mpr (Or.inr (by simp))
        have hc0dist : Point2D.distance ⟨t.minX, t.minY⟩ q
            ∈ cands.map (fun p => p.distance q) :=
          List.mem_map_of_mem _ hc0mem
        have hle : Point2D.distance ⟨t.minX, t.minY⟩ q ≤ 0 := by
          have h2 := foldl_max_ge_mem (cands.map (fun p => p.distance q)) 0 _ hc0dist
          rw [h] at h2
          exact h2
        have heq0 : Point2D.distance ⟨t.minX, t.minY⟩ q = 0 :=
          le_antisymm hle (point_distance_nonneg _ _)
        exact ⟨⟨t.minX, t.minY⟩, ⟨le_refl _, hx, le_refl _, hy⟩,
          by rw [hsnd, h, heq0]⟩
      · obtain ⟨p, hp, hfold⟩ := List.mem_map.mp h
        exact ⟨p, hcand_rect p hp, by rw [hsnd, ← hfold]⟩
    · intro dd hdd
      obtain ⟨r, hr, rfl⟩ := hdd
      exact hub r hr
  by_cases hresp : t.responsible q
  · have h0 : (EuclideanDistances t q).1 = 0 := by
      rw [hfst, if_pos hresp]
      exact foldl_min_zero_eq _ hd_nonneg
    refine ⟨⟨⟨q, ?_, by rw [h0, point_distance_self]⟩, ?_⟩, hmax, fun _ => h0⟩
    · exact ⟨hresp.1, le_of_lt hresp.2.2.1, hresp.2.1, le_of_lt hresp.2.2.2⟩
    · intro dd hdd
      obtain ⟨r, hr, rfl⟩ := hdd
      rw [h0]
      exact point_distance_nonneg r q
  · have hintx : (t.minX < q.x ∧ q.x < t.maxX) → max t.minX (min q.x t.maxX) = q.x :=
      fun h => by rw [min_eq_left (le_of_lt h.2), max_eq_right (le_of_lt h.1)]
    have hinty : (t.minY < q.y ∧ q.y < t.maxY) → max t.minY (min q.y t.maxY) = q.y :=
      fun h => by rw [min_eq_left (le_of_lt h.2), max_eq_right (le_of_lt h.1)]
    have hclampx : ¬ (t.minX < q.x ∧ q.x < t.maxX) →
        max t.minX (min q.x t.maxX) = t.minX ∨ max t.minX (min q.x t.maxX) = t.maxX := by
      intro h
      rcases not_and_or.mp h with h | h
      · left
        rw [min_eq_left (le_trans (not_lt.mp h) hx), max_eq_left (not_lt.mp h)]
      · right
        rw [min_eq_right (not_lt.mp h), max_eq_right hx]
    have hclampy : ¬ (t.minY < q.y ∧ q.y < t.maxY) →
        max t.minY (min q.y t.maxY) = t.minY ∨ max t.minY (min q.y t.maxY) = t.maxY := by
      intro h
      rcases not_and_or.mp h with h | h
      · left
        rw [min_eq_left (le_trans (not_lt.mp h) hy), max_eq_left (not_lt.mp h)]
      · right
        rw [min_eq_right (not_lt.mp h), max_eq_right hy]
    have hPrect : inClosedRect t
        ⟨max t.minX (min q.x t.maxX), max t.minY (min q.y t.maxY)⟩ :=
      ⟨le_max_left _ _, max_le hx (min_le_right _ _), le_max_left _ _,
        max_le hy (min_le_right _ _)⟩
    have hPlb : ∀ r : Point2D, inClosedRect t r →
        Point2D.distance ⟨max t.minX (min q.x t.maxX), max t.minY (min q.y t.maxY)⟩ q
          ≤ r.distance q := by
      intro r hr
      obtain ⟨hr1, hr2, hr3, hr4⟩ := hr
      refine point_distance_le_of_sq_le _ r q ?_
      show (max t.minX (min q.x t.maxX) - q.x) * (max t.minX (min q.x t.maxX) - q.x) +
          (max t.minY (min q.y t.maxY) - q.y) * (max t.minY (min q.y t.maxY) - q.y) ≤
          (r.x - q.x) * (r.x - q.x) + (r.y - q.y) * (r.y - q.y)
      exact add_le_add (clamp_sq_le q.x t.minX t.maxX r.x hr1 hr2)
        (clamp_sq_le q.y t.minY t.maxY r.y hr3 hr4)
    have hPmem : (⟨max t.minX (min q.x t.maxX), max t.minY (min q.y t.maxY)⟩ : Point2D)
        ∈ cands := by
      rw [hcands]
      by_cases hx1 : t.minX < q.x ∧ q.x < t.maxX
      · by_cases hy1 : t.minY < q.y ∧ q.y < t.maxY
        · exact absurd ⟨le_of_lt hx1.1, le_of_lt hy1.1, hx1.2, hy1.2⟩ hresp
        · rw [hintx hx1]
          rcases hclampy hy1 with hcy | hcy
          · rw [hcy]
            refine List.mem_append.mpr (Or.inl (List.mem_append.mpr (Or.inl ?_)))
            rw [if_pos (show q.x > t.minX ∧ q.x < t.maxX from hx1)]
            simp
          · rw [hcy]
            refine List.mem_append.mpr (Or.inl (List.mem_append.mpr (Or.inl ?_)))
            rw [if_pos (show q.x > t.minX ∧ q.x < t.maxX from hx1)]
            simp
      · by_cases hy1 : t.minY < q.y ∧ q.y < t.maxY
        · rw [hinty hy1]
          rcases hclampx hx1 with hcx | hcx
          · rw [hcx]
            refine List.mem_append.mpr (Or.inl (List.mem_append.mpr (Or.inr ?_)))
            rw [if_pos (show q.y > t.minY ∧ q.y < t.maxY from hy1)]
            simp
          · rw [hcx]
            refine List.mem_append.mpr (Or.inl (List.mem_append.mpr (Or.inr ?_)))
            rw [if_pos (show q.y > t.minY ∧ q.y < t.maxY from hy1)]
            simp
        · rcases hclampx hx1 with hcx | hcx
          · rcases hclampy hy1 with hcy | hcy
            · rw [hcx, hcy]
              exact List.mem_append.mpr (Or.inr (by simp))
            · rw [hcx, hcy]
              exact List.mem_append.mpr (Or.inr (by simp))
          · rcases hclampy hy1 with hcy | hcy
            · rw [hcx, hcy]
              exact List.mem_append.mpr (Or.inr (by simp))
            · rw [hcx, hcy]
              exact List.mem_append.mpr (Or.inr (by simp))
    have hminval : (EuclideanDistances t q).1 =
        Point2D.distance ⟨max t.minX (min q.x t.maxX), max t.minY (min q.y t.maxY)⟩ q := by
      rw [hfst, if_neg hresp]
      have hPm : Point2D.distance
          ⟨max t.minX (min q.x t.maxX), max t.minY (min q.y t.maxY)⟩ q
          ∈ cands.map (fun p => p.distance q) :=
        List.mem_map_of_mem (fun p => p.distance q) hPmem
      have hlb : ∀ x ∈ cands.map (fun p => p.distance q),
          Point2D.distance
            ⟨max t.minX (min q.x t.maxX), max t.minY (min q.y t.maxY)⟩ q ≤ x := by
        intro x hxm
        obtain ⟨p, hp, rfl⟩ := List.mem_map.mp hxm
        exact hPlb p (hcand_rect p hp)
      rcases hce : cands.map (fun p => p.distance q) with - | ⟨e, es⟩
      · rw [hce] at hPm
        simp at hPm
      · rw [hce] at hPm hlb
        rw [hce]
        show es.foldl min e = _
        exact cons_min_eq e es _ hPm hlb
    refine ⟨⟨⟨_, hPrect, hminval⟩, ?_⟩, hmax, fun hr => absurd hr hresp⟩
    intro dd hdd
    obtain ⟨r, hr, rfl⟩ := hdd
    rw [hminval]
    exact hPlb r hr

/-- **C3** — `EuclideanDistances(query)` returns exactly the pair of the
minimum and the maximum Euclidean distance from the query point to the
points of the node's closed axis-aligned rectangle (for a well-formed,
possibly degenerate region); in particular the minimum is `0` whenever the
node is responsible for the query point, and neither bound is loose. -/
theorem claim_C3_distance_bounds (t : QuadNode) (q : Point2D)
    (hx : t.minX ≤ t.maxX) (hy : t.minY ≤ t.maxY) :
    IsLeast {d : ℝ | ∃ p : Point2D, inClosedRect t p ∧ d = p.distance q}
      (EuclideanDistances t q).1 ∧
    IsGreatest {d : ℝ | ∃ p : Point2D, inClosedRect t p ∧ d = p.distance q}
      (EuclideanDistances t q).2 ∧
    (t.responsible q → (EuclideanDistances t q).1 = 0) :=
  EuclideanDistances_bounds t q hx hy

/-- Witness for C3 on the unit-square example leaf with the query at the
origin corner. -/
theorem claim_C3_witness :
    (exampleLeaf.minX ≤ exampleLeaf.maxX ∧ exampleLeaf.minY ≤ exampleLeaf.maxY) ∧
    IsLeast {d : ℝ | ∃ p : Point2D, inClosedRect exampleLeaf p ∧
      d = p.distance ⟨0, 0⟩} (EuclideanDistances exampleLeaf ⟨0, 0⟩).1 :=
  have hx : exampleLeaf.minX ≤ exampleLeaf.maxX := by norm_num [exampleLeaf, minX, maxX]
  have hy : exampleLeaf.minY ≤ exampleLeaf.maxY := by norm_num [exampleLeaf, minY, maxY]
  ⟨⟨hx, hy⟩, (claim_C3_distance_bounds exampleLeaf ⟨0, 0⟩ hx hy).1⟩

/-- The minimum distance reported by `EuclideanDistances` is never
negative. -/
theorem EuclideanDistances_fst_nonneg (t : QuadNode) (q : Point2D) :
    0 ≤ (EuclideanDistances t q).1 := by
  classical
  set cands : List Point2D :=
    (if q.x > t.minX ∧ q.x < t.maxX then
       [⟨q.x, t.maxY⟩, ⟨q.x, t.minY⟩] else []) ++
    (if q.y > t.minY ∧ q.y < t.maxY then
       [⟨t.maxX, q.y⟩, ⟨t.minX, q.y⟩] else []) ++
    [⟨t.minX, t.minY⟩, ⟨t.minX, t.maxY⟩, ⟨t.maxX, t.minY⟩, ⟨t.maxX, t.maxY⟩]
    with hcands
  have hfst : (EuclideanDistances t q).1 =
      (if t.responsible q then (cands.map (fun p => p.distance q)).foldl min 0
       else match cands.map (fun p => p.distance q) with
         | [] => 0
         | e :: es => es.foldl min e) := rfl
  have hd_nonneg : ∀ x ∈ cands.map (fun p => p.distance q), 0 ≤ x := by
    intro x hxm
    obtain ⟨p, -, rfl⟩ := List.mem_map.mp hxm
    exact point_distance_nonneg p q
  rw [hfst]
  by_cases hresp : t.responsible q
  · rw [if_pos hresp, foldl_min_zero_eq _ hd_nonneg]
  · rw [if_neg hresp]
    rcases hce : cands.map (fun p => p.distance q) with - | ⟨e, es⟩
    · rw [hce]
    · rw [hce]
      show 0 ≤ es.foldl min e
      rcases foldl_min_mem es e with h | h
      · rw [h]
        exact hd_nonneg e (by rw [hce]; exact List.mem_cons_self e es)
      · exact hd_nonneg _ (by rw [hce]; exact List.mem_cons_of_mem e h)

/-- When a subtree is out of reach of the query circle, none of its stored
pairs passes the brute-force distance test. -/
theorem prune_sound (t : QuadNode) (hInv : Inv t) (center : Point2D) (radius : ℝ)
    (hoor : outOfReach t center radius) :
    ∀ pr ∈ t.storedPairs, ¬ (pr.2.distance center < radius) := by
  intro pr hpr
  obtain ⟨h1, h2, h3, h4⟩ := responsible_of_mem_storedPairs t hInv pr hpr
  have hx : t.minX ≤ t.maxX := le_of_lt (lt_of_le_of_lt h1 h3)
  have hy : t.minY ≤ t.maxY := le_of_lt (lt_of_le_of_lt h2 h4)
  have hrect : inClosedRect t pr.2 := ⟨h1, le_of_lt h3, h2, le_of_lt h4⟩
  have hle : (EuclideanDistances t center).1 ≤ pr.2.distance center :=
    (EuclideanDistances_bounds t center hx hy).1.2 ⟨pr.2, hrect, rfl⟩
  intro hlt
  have : (EuclideanDistances t center).1 > radius := hoor
  linarith

/-- The leaf membership test (exact squared-distance comparison against
`radius * radius`) agrees with the distance test for nonnegative radii. -/
theorem leaf_test_iff (p center : Point2D) (radius : ℝ) (hr : 0 ≤ radius) :
    ((((p.getX - center.getX) * (p.getX - center.getX) +
      (p.getY - center.getY) * (p.getY - center.getY) : ℚ) : ℝ) < radius * radius) ↔
    p.distance center < radius := by
  have hsq : (0 : ℚ) ≤ (p.getX - center.getX) * (p.getX - center.getX) +
      (p.getY - center.getY) * (p.getY - center.getY) :=
    add_nonneg (mul_self_nonneg _) (mul_self_nonneg _)
  rcases eq_or_lt_of_le hr with rfl | hr
  · constructor
    · intro h
      exfalso
      rw [mul_zero] at h
      exact absurd h (not_lt.mpr (by exact_mod_cast hsq))
    · intro h
      exact absurd h (not_lt.mpr (point_distance_nonneg p center))
  · rw [Point2D.distance]
    rw [show radius * radius = radius ^ 2 by ring]
    rw [Real.sqrt_lt' hr]
    show ((((p.getX - center.getX) * (p.getX - center.getX) +
      (p.getY - center.getY) * (p.getY - center.getY) : ℚ) : ℝ) < radius ^ 2) ↔ _
    exact Iff.rfl

/-- The leaf loop of the circle query appends exactly the identifiers of
the pairs passing the distance test, in order. -/
theorem leaf_foldl_filter (center : Point2D) (radius : ℝ) (hr : 0 ≤ radius) :
    ∀ (cps : List (ℕ × Point2D)) (result : List ℕ),
    cps.foldl (fun res cp =>
      if (((cp.2.getX - center.getX) * (cp.2.getX - center.getX) +
           (cp.2.getY - center.getY) * (cp.2.getY - center.getY) : ℚ) : ℝ)
          < radius * radius then res ++ [cp.1] else res) result =
    result ++ (cps.filter (fun pr => decide (pr.2.distance center < radius))).map
      Prod.fst := by
  intro cps
  induction cps with
  | nil => intro result; simp
  | cons cp cps ih =>
    intro result
    rw [List.foldl_cons, List.filter_cons]
    by_cases h : cp.2.distance center < radius
    · rw [if_pos ((leaf_test_iff cp.2 center radius hr).mpr h)]
      rw [if_pos (by simpa using h)]
      rw [ih]
      simp
    · rw [if_neg (fun hc => h ((leaf_test_iff cp.2 center radius hr).mp hc))]
      rw [if_neg (by simpa using h)]
      rw [ih]

/-- The circle query agrees with the brute-force scan on every tree
satisfying the invariant. -/
theorem circle_query_eq : ∀ t : QuadNode, Inv t →
    ∀ (center : Point2D) (radius : ℝ) (result : List ℕ),
    getElementsInEuclideanCircle t center radius result =
      result ++ bruteForceCircleQuery t center radius := by
  intro t
  induction t using inductionOn with
  | ih d ch ih =>
    intro hInv center radius result
    rw [getElementsInEuclideanCircle]
    by_cases hoor : outOfReach (.mk d ch) center radius
    · rw [if_pos hoor]
      have hnil : bruteForceCircleQuery (.mk d ch) center radius = [] := by
        rw [bruteForceCircleQuery]
        rw [List.filter_eq_nil_iff.mpr ?_]
        · simp
        · intro pr hpr
          simp only [decide_eq_true_eq]
          exact prune_sound _ hInv center radius hoor pr hpr
      rw [hnil, List.append_nil]
    · rw [if_neg hoor]
      have hr : 0 ≤ radius := by
        have hnn := EuclideanDistances_fst_nonneg (.mk d ch) center
        have hle : ¬ ((EuclideanDistances (.mk d ch) center).1 > radius) := hoor
        rw [not_lt] at hle
        linarith
      by_cases hleaf : d.isLeaf = true
      · rw [if_pos hleaf]
        have hsp : storedPairs (.mk d ch) = d.content.zip d.positions := by
          rw [storedPairs]
          simp only [hleaf, if_true]
        show (d.content.zip d.positions).foldl (fun res cp =>
            if (((cp.2.getX - center.getX) * (cp.2.getX - center.getX) +
              (cp.2.getY - center.getY) * (cp.2.getY - center.getY) : ℚ) : ℝ)
              < radius * radius then res ++ [cp.1] else res) result =
          result ++ bruteForceCircleQuery (.mk d ch) center radius
        rw [leaf_foldl_filter center radius hr]
        rw [bruteForceCircleQuery, hsp]
      · rw [if_neg hleaf]
        have hchInv : ∀ c ∈ ch, Inv c := ((Inv_mk d ch).mp hInv).2.2
        have hsp : storedPairs (.mk d ch) = storedPairsList ch := by
          rw [storedPairs]
          simp [hleaf]
        have hlist : ∀ cs : List QuadNode, (∀ c ∈ cs, c ∈ ch) → ∀ res : List ℕ,
            getElementsInEuclideanCircleList cs center radius res =
              res ++ ((storedPairsList cs).filter
                (fun pr => decide (pr.2.distance center < radius))).map Prod.fst := by
          intro cs
          induction cs with
          | nil =>
            intro _ res
            simp [getElementsInEuclideanCircleList, storedPairsList]
          | cons c cs ihcs =>
            intro hsub res
            rw [getElementsInEuclideanCircleList]
            rw [ih c (hsub c (by simp)) (hchInv c (hsub c (by simp))) center radius res]
            rw [ihcs (fun x hx => hsub x (by simp [hx]))]
            rw [bruteForceCircleQuery]
            show res ++ ((storedPairs c).filter _).map Prod.fst ++
                ((storedPairsList cs).filter _).map Prod.fst = _
            rw [storedPairsList, List.filter_append, List.map_append, List.append_assoc]
        rw [hlist ch (fun c hc => hc) result, bruteForceCircleQuery, hsp]

/-- **C1** — on every tree built by a sequence of insertions and removals,
`getElementsInEuclideanCircle(center, radius, result)` appends to `result`
exactly the stored identifiers whose Euclidean distance to `center` is
strictly below `radius` — the same list, in storage order, that a
brute-force scan over all stored `(id, position)` pairs produces, for every
center and every radius (zero, negative and over-large radii included). -/
theorem claim_C1_circle_query_exact (lower upper : Point2D) (cap : ℕ) (fl : Bool)
    (fuel : ℕ) (ops : List TreeOp) (t : QuadNode) (center : Point2D) (radius : ℝ)
    (result : List ℕ) (hbuild : build lower upper cap fl fuel ops = some t) :
    getElementsInEuclideanCircle t center radius result =
      result ++ bruteForceCircleQuery t center radius :=
  circle_query_eq t (build_Inv lower upper cap fl fuel ops t hbuild) center radius result

/-- Witness for C1 on the concrete one-element build. -/
theorem claim_C1_witness :
    build ⟨0, 0⟩ ⟨1, 1⟩ 4 true 20 exampleOps = some exampleLeaf ∧
    getElementsInEuclideanCircle exampleLeaf ⟨0, 0⟩ 2 [] =
      [] ++ bruteForceCircleQuery exampleLeaf ⟨0, 0⟩ 2 :=
  ⟨build_exampleOps, claim_C1_circle_query_exact ⟨0, 0⟩ ⟨1, 1⟩ 4 true 20 exampleOps
    exampleLeaf ⟨0, 0⟩ 2 [] build_exampleOps⟩

end QuadNode

end QuadTree
